import Mathlib

/-!
Verification of `anki_to_json.py` (Anki collection → JSON converter).

The Python source is shallowly embedded: strings are modelled as `List Char`
(abbreviated `Str`), regular-expression substitutions as fueled left-to-right
scanners (fuel = input length, which suffices because every step consumes at
least one character, so the fuel is never exhausted before the input is),
the zip archive as an association list of entry names to byte lists, the
SQLite rows as lists of records, and filesystem/console side effects as
explicit effect traces.  Fallible operations return `Option`/`Except`.
-/

/-! ## Basic string machinery (Python `str` operations on `List Char`) -/

abbrev Str := List Char

/-- `leadsWith pat s` is true iff `pat` is an initial segment of `s`
(Python `s.startswith(pat)`; also the anchored test a regex engine performs
at the current position). -/
def leadsWith : Str → Str → Bool
  | [], _ => true
  | _ :: _, [] => false
  | p :: ps, c :: cs => p == c && leadsWith ps cs

/-- If `pat` is an initial segment of `s`, return the remainder of `s`
after it, else `none`. -/
def tryDrop : Str → Str → Option Str
  | [], s => some s
  | _ :: _, [] => none
  | p :: ps, c :: cs => if p = c then tryDrop ps cs else none

/-- The characters Python's `str.strip()` (and `\s` in a `str` regex) treats
as whitespace, restricted to the code points below U+0100 (exotic Unicode
whitespace above that range is not modelled; no string in this development
contains any). -/
def isSpacePy (c : Char) : Bool :=
  c = ' ' || c = '\t' || c = '\n' || c = '\r' || c = '\x0b' || c = '\x0c' ||
  c = '\x1c' || c = '\x1d' || c = '\x1e' || c = '\x1f' || c = '\x85' || c = '\xa0'

/-- Python `str.strip()`: drop leading and trailing whitespace. -/
def pyStrip (s : Str) : Str :=
  ((s.dropWhile isSpacePy).reverse.dropWhile isSpacePy).reverse

/-- Python `str.replace(pat, rep)`: replace every occurrence of `pat`,
scanning left to right without overlap, continuing after each inserted
replacement.  Structured with fuel; `pyReplace` supplies fuel = input length,
which never runs out because each step consumes at least one character
(all patterns used in the source are nonempty). -/
def replaceF (pat rep : Str) : Nat → Str → Str
  | 0, s => s
  | _ + 1, [] => []
  | fuel + 1, c :: rest =>
    match tryDrop pat (c :: rest) with
    | some rest' => rep ++ replaceF pat rep fuel rest'
    | none => c :: replaceF pat rep fuel rest

def pyReplace (s pat rep : Str) : Str := replaceF pat rep s.length s

/-- Python `"sep".join` over already-assembled parts. -/
def joinWith (sep : Str) : List Str → Str
  | [] => []
  | [x] => x
  | x :: xs => x ++ sep ++ joinWith sep xs

/-- Python `c.lower()` restricted to the code points that actually occur in
this program's comparisons: ASCII letters, plus `'É' → 'é'` (for the locale
label `"par défaut"`).  Other characters are returned unchanged. -/
def pyLower (c : Char) : Char :=
  if 'A' ≤ c && c ≤ 'Z' then Char.ofNat (c.toNat + 32)
  else if c = 'É' then 'é' else c

def strLower (s : Str) : Str := s.map pyLower

/-! ## `clean_html` (lines 61–77): fueled scanners for the three `re.sub`
calls, then the five entity replacements in source order, then strip. -/

/-- Scan to the first `']'`, returning the captured body and the remainder
(the regex fragment `[^\]]+\]` after at least one body character). -/
def scanClose : Str → Option (Str × Str)
  | [] => none
  | ']' :: t => some ([], t)
  | c :: t =>
    match scanClose t with
    | some (cap, after) => some (c :: cap, after)
    | none => none

/-- Attempt to match `sound:[^\]]+\]` (the part of `\[sound:[^\]]+\]` after
the opening bracket); on success return the captured name and the remainder. -/
def trySound (rest : Str) : Option (Str × Str) :=
  match tryDrop "sound:".toList rest with
  | none => none
  | some afterColon =>
    match afterColon with
    | [] => none
    | ']' :: _ => none
    | c :: t =>
      match scanClose t with
      | some (cap, after) => some (c :: cap, after)
      | none => none

/-- `re.sub(r'\[sound:[^\]]+\]', '', text)`: delete every sound reference. -/
def dropSoundF : Nat → Str → Str
  | 0, s => s
  | _ + 1, [] => []
  | fuel + 1, c :: rest =>
    if c = '[' then
      match trySound rest with
      | some (_, rest') => dropSoundF fuel rest'
      | none => c :: dropSoundF fuel rest
    else c :: dropSoundF fuel rest

def dropSound (s : Str) : Str := dropSoundF s.length s

/-- After `\s*` has been consumed, match `/?>` (tail of `<br\s*/?>`). -/
def brClose : Str → Option Str
  | '/' :: '>' :: t => some t
  | '>' :: t => some t
  | _ => none

/-- Attempt to match `br\s*/?>` (case-insensitive, after the `<`). -/
def tryBr : Str → Option Str
  | b :: r :: rest =>
    if (b = 'b' || b = 'B') && (r = 'r' || r = 'R') then
      brClose (rest.dropWhile isSpacePy)
    else none
  | _ => none

/-- `re.sub(r'<br\s*/?>', '\n', text, flags=re.IGNORECASE)`. -/
def brToNewlineF : Nat → Str → Str
  | 0, s => s
  | _ + 1, [] => []
  | fuel + 1, c :: rest =>
    if c = '<' then
      match tryBr rest with
      | some rest' => '\n' :: brToNewlineF fuel rest'
      | none => c :: brToNewlineF fuel rest
    else c :: brToNewlineF fuel rest

def brToNewline (s : Str) : Str := brToNewlineF s.length s

/-- Scan to the first `'>'`, returning the remainder after it
(the regex fragment `[^>]+>` after at least one inner character). -/
def scanGt : Str → Option Str
  | [] => none
  | '>' :: t => some t
  | _ :: t => scanGt t

/-- Attempt to match `[^>]+>` (tail of `<[^>]+>` after the `<`). -/
def tryTag : Str → Option Str
  | [] => none
  | '>' :: _ => none
  | _ :: t => scanGt t

/-- `re.sub(r'<[^>]+>', '', text)`: delete remaining HTML tags. -/
def dropTagsF : Nat → Str → Str
  | 0, s => s
  | _ + 1, [] => []
  | fuel + 1, c :: rest =>
    if c = '<' then
      match tryTag rest with
      | some rest' => dropTagsF fuel rest'
      | none => c :: dropTagsF fuel rest
    else c :: dropTagsF fuel rest

def dropTags (s : Str) : Str := dropTagsF s.length s

/-- The five `str.replace` entity decodings, in source order (lines 72–76):
`&nbsp;`, `&lt;`, `&gt;`, `&amp;`, and finally `&quot;`. -/
def decodeEntities (s : Str) : Str :=
  pyReplace (pyReplace (pyReplace (pyReplace (pyReplace s
    "&nbsp;".toList " ".toList)
    "&lt;".toList "<".toList)
    "&gt;".toList ">".toList)
    "&amp;".toList "&".toList)
    "&quot;".toList "\"".toList

/-- `clean_html` on character lists. -/
def cleanHtmlL (s : Str) : Str :=
  if s = [] then []
  else pyStrip (decodeEntities (dropTags (brToNewline (dropSound s))))

/-- `clean_html(text)` (lines 61–77). -/
def clean_html (s : String) : String := ⟨cleanHtmlL s.data⟩

/-! ## `fix_media_paths` (lines 80–88) -/

/-- Scan to the first `'"'`, returning the captured attribute value and the
remainder (regex fragment `[^"]+"` after at least one value character). -/
def scanQuote : Str → Option (Str × Str)
  | [] => none
  | '"' :: t => some ([], t)
  | c :: t =>
    match scanQuote t with
    | some (cap, after) => some (c :: cap, after)
    | none => none

/-- Attempt to match `(?!media/)(?!http)([^"]+)"` at the position right
after `src="`. -/
def trySrcValue (after : Str) : Option (Str × Str) :=
  if leadsWith "media/".toList after || leadsWith "http".toList after then none
  else
    match after with
    | [] => none
    | '"' :: _ => none
    | c :: t =>
      match scanQuote t with
      | some (cap, rest) => some (c :: cap, rest)
      | none => none

/-- `re.sub(r'src="(?!media/)(?!http)([^"]+)"', r'src="media/\1"', html)`. -/
def fixSrcF : Nat → Str → Str
  | 0, s => s
  | _ + 1, [] => []
  | fuel + 1, c :: rest =>
    match tryDrop "src=\"".toList (c :: rest) with
    | some after =>
      match trySrcValue after with
      | some (cap, t) =>
        "src=\"media/".toList ++ cap ++ '"' :: fixSrcF fuel t
      | none => c :: fixSrcF fuel rest
    | none => c :: fixSrcF fuel rest

def fixSrc (s : Str) : Str := fixSrcF s.length s

/-- `re.sub(r'\[sound:([^\]]+)\]', r'<audio controls src="media/\1"></audio>', html)`. -/
def soundToAudioF : Nat → Str → Str
  | 0, s => s
  | _ + 1, [] => []
  | fuel + 1, c :: rest =>
    if c = '[' then
      match trySound rest with
      | some (cap, rest') =>
        "<audio controls src=\"media/".toList ++ cap ++ "\"></audio>".toList ++
          soundToAudioF fuel rest'
      | none => c :: soundToAudioF fuel rest
    else c :: soundToAudioF fuel rest

def soundToAudio (s : Str) : Str := soundToAudioF s.length s

/-- `fix_media_paths(html)` (lines 80–88): `src="…"` rewriting first, then
sound-reference rewriting. -/
def fix_media_paths (s : String) : String :=
  if s.data = [] then "" else ⟨soundToAudio (fixSrc s.data)⟩

/-! ## Archive Reader (lines 17–58)

The zip archive is modelled as a list of named byte entries; `extract_colpkg`
is modelled after full extraction, so its input is the list of file names
present in the extraction directory.  `os.path.join` is modelled as
`dir ++ "/" ++ name` (no trailing-slash handling is exercised). -/

deriving instance DecidableEq for Except

structure ZipEntry where
  name : String
  bytes : List Nat
deriving DecidableEq

abbrev Zip := List ZipEntry

/-- `zip_ref.read(name)`: the bytes of the entry called `name`, or `none`
(Python raises `KeyError`) if there is no such entry. -/
def zipRead (z : Zip) (nm : String) : Option (List Nat) :=
  (z.find? (fun e => e.name == nm)).map ZipEntry.bytes

/-- `extract_colpkg` (lines 17–28) after `extractall`: look for
`collection.anki21` then `collection.anki2` among the extracted files;
raise `FileNotFoundError` if neither exists. -/
def extract_colpkg (files : List String) (extract_dir : String) : Except String String :=
  if "collection.anki21" ∈ files then .ok (extract_dir ++ "/" ++ "collection.anki21")
  else if "collection.anki2" ∈ files then .ok (extract_dir ++ "/" ++ "collection.anki2")
  else .error "No Anki database found in the .colpkg file"

/-- Filesystem/console side effects of `extract_media`, in order. -/
inductive MediaEffect where
  | mkdir (path : String)
  | warnNoMedia
  | writeFile (path : String) (data : List Nat)
deriving DecidableEq

/-- The loop over `media_map.items()` (lines 48–56): write each mapped
payload under its original name; entries whose numeric name is missing from
the archive are skipped (`except KeyError: pass`).  Returns the effect list
and the count of files written. -/
def writeMedia (z : Zip) (mediaDir : String) : List (String × String) → List MediaEffect × Nat
  | [] => ([], 0)
  | (num, orig) :: rest =>
    let r := writeMedia z mediaDir rest
    match zipRead z num with
    | some d => (MediaEffect.writeFile (mediaDir ++ "/" ++ orig) d :: r.1, r.2 + 1)
    | none => r

/-- `extract_media` (lines 31–58).  `decode` stands for `bytes.decode('utf-8')`
and `parseMap` for `json.loads` (a JSON object read as an association list in
key order); both are parameters of the embedding.  The `try` block catches
only `KeyError` (entry absent, `zipRead = none`) and `json.JSONDecodeError`
(`parseMap = none`); a `UnicodeDecodeError` from `decode` is NOT caught and
propagates as an error.  The `media` directory is created before anything
else, so the `mkdir` effect is emitted on every path. -/
def extract_media (decode : List Nat → Option String)
    (parseMap : String → Option (List (String × String)))
    (z : Zip) (output_dir : String) : List MediaEffect × Except String Nat :=
  let md := output_dir ++ "/" ++ "media"
  match zipRead z "media" with
  | none => ([MediaEffect.mkdir md, MediaEffect.warnNoMedia], .ok 0)
  | some bs =>
    match decode bs with
    | none => ([MediaEffect.mkdir md], .error "UnicodeDecodeError")
    | some s =>
      match parseMap s with
      | none => ([MediaEffect.mkdir md, MediaEffect.warnNoMedia], .ok 0)
      | some mm =>
        let r := writeMedia z md mm
        (MediaEffect.mkdir md :: r.1, .ok r.2)

/-- UTF-8 decoding restricted to ASCII-only byte strings.  This agrees with
Python's `bytes.decode('utf-8')` on every input used in this file: on pure
ASCII bytes (where it succeeds with the same characters) and on the single
byte `0xFF` (which is not valid UTF-8 at any position, so Python raises
`UnicodeDecodeError` and this returns `none`). -/
def asciiDecode (bs : List Nat) : Option String :=
  if bs.all (· < 128) then some ⟨bs.map Char.ofNat⟩ else none

/-- A `json.loads` stand-in that fails on every input (used to exhibit inputs
whose `media` entry never reaches the JSON parser). -/
def neverParses : String → Option (List (String × String)) := fun _ => none

/-! ## Collection Parser: notes and cards (lines 91–165) -/

/-- A row of the `notes` table (`SELECT id, mid, flds, tags FROM notes`). -/
structure NoteRow where
  id : Int
  mid : Int
  flds : Str
  tags : Str
deriving DecidableEq

/-- A row of the `cards` table (`SELECT id, nid, did, ord FROM cards`). -/
structure CardRow where
  id : Int
  nid : Int
  did : Int
  ord : Int
deriving DecidableEq

/-- An output card object (lines 146–152). -/
structure Card where
  deckId : String
  front : String
  frontClean : String
  back : String
  backClean : String
deriving DecidableEq

/-- Python `s.split('\x1f')` for nonempty `s` (single-character separator). -/
def splitUnitSep : Str → List Str
  | [] => [[]]
  | c :: rest =>
    if c = '\x1f' then [] :: splitUnitSep rest
    else
      match splitUnitSep rest with
      | [] => [[c]]
      | p :: ps => (c :: p) :: ps

/-- `fields.split('\x1f') if fields else []` (line 119). -/
def splitFields (s : Str) : List Str :=
  if s = [] then [] else splitUnitSep s

/-- The `notes` dict (lines 116–124) is keyed by `id` with later duplicate
ids overwriting earlier ones, so a lookup finds the last matching row. -/
def lookupNote (notes : List NoteRow) (n : Int) : Option NoteRow :=
  notes.reverse.find? (fun nr => nr.id == n)

/-- Build one output card from a card row (lines 136–152): field 0 is the
front, the non-blank remaining fields joined with `<br>` are the back; a
missing note yields the empty field list. -/
def buildCard (notes : List NoteRow) (c : CardRow) : Card :=
  let fields :=
    match lookupNote notes c.nid with
    | some nr => splitFields nr.flds
    | none => []
  let front := fields.headD []
  let back := joinWith "<br>".toList ((fields.tail).filter (fun p => !(pyStrip p).isEmpty))
  { deckId := toString c.did
    front := fix_media_paths ⟨front⟩
    frontClean := clean_html ⟨front⟩
    back := fix_media_paths ⟨back⟩
    backClean := clean_html ⟨back⟩ }

/-- Ascending-`ord` comparison used by `ORDER BY ord`. -/
def cardLe (a b : CardRow) : Prop := a.ord ≤ b.ord

instance : DecidableRel cardLe := fun a b => inferInstanceAs (Decidable (a.ord ≤ b.ord))

instance : IsTotal CardRow cardLe := ⟨fun a b => Int.le_total a.ord b.ord⟩

instance : IsTrans CardRow cardLe := ⟨fun _ _ _ h₁ h₂ => Int.le_trans h₁ h₂⟩

/-- `SELECT … FROM cards ORDER BY ord`: the card rows in ascending `ord`
order (SQLite does not specify the relative order of equal `ord`s; a stable
sort is one realization of it). -/
def sortCards (cs : List CardRow) : List CardRow := List.insertionSort cardLe cs

/-- The dedup loop (lines 129–153): walk the ord-sorted rows, skipping any
card whose note already has an entry, otherwise appending
`(note id, built card)`.  `seen` holds the note ids already emitted; the
resulting association list is the insertion-ordered `cards_by_note` dict. -/
def cardsByNoteAux (notes : List NoteRow) : List CardRow → List Int → List (Int × Card)
  | [], _ => []
  | c :: rest, seen =>
    if c.nid ∈ seen then cardsByNoteAux notes rest seen
    else (c.nid, buildCard notes c) :: cardsByNoteAux notes rest (c.nid :: seen)

def cardsByNote (notes : List NoteRow) (cs : List CardRow) : List (Int × Card) :=
  cardsByNoteAux notes (sortCards cs) []

/-- `cards = list(cards_by_note.values())` (line 155). -/
def parseCards (notes : List NoteRow) (cs : List CardRow) : List Card :=
  (cardsByNote notes cs).map Prod.snd

/-! ## Decks and the deck tree (lines 103–112, 168–213) -/

/-- A retained raw deck record: `{"id": deck_id, "name": deck_name}`. -/
structure Deck where
  id : Str
  name : Str
deriving DecidableEq

/-- The default-deck label set (line 107). -/
def defaultLabels : List Str := ["default".toList, "par défaut".toList]

/-- `deck_name.lower() in ["default", "par défaut"]`. -/
def isDefaultName (nm : Str) : Bool := defaultLabels.contains (strLower nm)

/-- Lines 103–112: build the deck table from the decoded `decks` JSON object
(an association list of `deck_id` to an optional `name` field, keys unique),
taking `"Unknown"` for a missing name and skipping default-named decks. -/
def filterDecks (dj : List (Str × Option Str)) : List Deck :=
  dj.filterMap (fun e =>
    let nm := e.2.getD "Unknown".toList
    if isDefaultName nm then none else some ⟨e.1, nm⟩)

/-- Python `name.split("::")` (leftmost, non-overlapping). -/
def splitDelim : Str → List Str
  | [] => [[]]
  | ':' :: ':' :: rest => [] :: splitDelim rest
  | c :: rest =>
    match splitDelim rest with
    | [] => [[c]]
    | p :: ps => (c :: p) :: ps

/-- A node of the output deck tree (lines 191–196).  Children are stored in
insertion (creation) order. -/
inductive DeckNode where
  | mk (id name fullPath : Str) (children : List DeckNode)

def DeckNode.id : DeckNode → Str
  | .mk i _ _ _ => i

def DeckNode.name : DeckNode → Str
  | .mk _ n _ _ => n

def DeckNode.fullPath : DeckNode → Str
  | .mk _ _ p _ => p

def DeckNode.children : DeckNode → List DeckNode
  | .mk _ _ _ cs => cs

mutual
/-- All `fullPath`s in a subtree, preorder. -/
def nodePaths : DeckNode → List Str
  | .mk _ _ p cs => p :: forestPaths cs
def forestPaths : List DeckNode → List Str
  | [] => []
  | n :: ns => nodePaths n ++ forestPaths ns
end

mutual
/-- All `id`s in a subtree, preorder. -/
def nodeIds : DeckNode → List Str
  | .mk i _ _ cs => i :: forestIds cs
def forestIds : List DeckNode → List Str
  | [] => []
  | n :: ns => nodeIds n ++ forestIds ns
end

mutual
/-- `parent["children"].append(node)` (line 200): append `child` to the
children of the node whose `fullPath` is `p`.  In the source, `deck_map`
holds a reference to that node; since node full paths are unique (proved
below), appending under the unique matching path is the same operation. -/
def attachNode (p : Str) (child : DeckNode) : DeckNode → DeckNode
  | .mk i nm fp cs =>
    if fp = p then .mk i nm fp (cs ++ [child])
    else .mk i nm fp (attachForest p child cs)
def attachForest (p : Str) (child : DeckNode) : List DeckNode → List DeckNode
  | [] => []
  | n :: ns => attachNode p child n :: attachForest p child ns
end

/-- The full paths of the root nodes (used by the `root_nodes` duplicate
check, lines 202–209). -/
def topPaths (f : List DeckNode) : List Str := f.map DeckNode.fullPath

/-- `current_path += "::" + part` / `current_path = part` (lines 185–188). -/
def stepPath (cur part : Str) : Str :=
  if cur = [] then part else cur ++ "::".toList ++ part

/-- The node created at a fresh path (lines 191–196). -/
def newNode (d : Deck) (part cur' : Str) : DeckNode :=
  DeckNode.mk (if cur' = d.name then d.id else "virtual_".toList ++ cur') part cur' []

/-- The forest update of one loop iteration (lines 190–209): if the path is
fresh, create its node and either attach it under the parent or append it to
the root list (after the root duplicate check). -/
def stepForest (d : Deck) (part cur' : Str) (par : Option Str)
    (f : List DeckNode) : List DeckNode :=
  if cur' ∈ forestPaths f then f
  else
    match par with
    | some pp => attachForest pp (newNode d part cur') f
    | none => if cur' ∈ topPaths f then f else f ++ [newNode d part cur']

/-- The body of the `for i, part in enumerate(parts)` loop (lines 184–211).
State: the forest so far, `current_path`, and the parent path (`None` on the
first iteration; afterwards `deck_map[current_path]`, identified by its
unique full path).  The membership test `current_path not in deck_map`
is `cur' ∈ forestPaths f`, because the keys of `deck_map` are exactly the
full paths of the nodes in the forest (every created node is attached). -/
def walkParts (d : Deck) : List Str → List DeckNode → Str → Option Str → List DeckNode
  | [], f, _, _ => f
  | part :: rest, f, cur, par =>
    let cur' := stepPath cur part
    walkParts d rest (stepForest d part cur' par f) cur' (some cur')

/-- Lexicographic (code-point) string comparison, Python `<=` on `str`. -/
def strLe : Str → Str → Bool
  | [], _ => true
  | _ :: _, [] => false
  | a :: as, b :: bs => if a = b then strLe as bs else decide (a < b)

/-- Python `sorted(decks.values(), key=lambda d: d["name"])` comparison. -/
def deckLe (a b : Deck) : Prop := strLe a.name b.name = true

instance : DecidableRel deckLe := fun _ _ =>
  inferInstanceAs (Decidable (_ = true))

/-- `build_deck_tree(decks)` (lines 168–213): process the decks in
name-sorted order, walking each deck's `::`-separated parts. -/
def build_deck_tree (decks : List Deck) : List DeckNode :=
  (List.insertionSort deckLe decks).foldl
    (fun f d => walkParts d (splitDelim d.name) f [] none) []

/-- The result of `parse_anki_collection` (deck tree and deduplicated card
list; the `tags` column is read but unused). -/
structure Collection where
  decks : List DeckNode
  cards : List Card

/-- `parse_anki_collection` (lines 91–165), applied to the decoded deck
JSON object and the rows of the `notes` and `cards` tables. -/
def parse_anki_collection (dj : List (Str × Option Str))
    (notes : List NoteRow) (cards : List CardRow) : Collection :=
  { decks := build_deck_tree (filterDecks dj)
    cards := parseCards notes cards }

/-- `"::".join` of a list of segment names (used to state the ancestor-path
property of the tree). -/
def joinPath (xs : List Str) : Str := joinWith "::".toList xs

mutual
/-- `anc` is the list of ancestor names from the root down to the parent;
checks that every node's `fullPath` is the `::`-join of the ancestor names
plus its own name, recursively. -/
def nodeJoinOK (anc : List Str) : DeckNode → Bool
  | .mk _ nm fp cs => (fp == joinPath (anc ++ [nm])) && forestJoinOK (anc ++ [nm]) cs
def forestJoinOK (anc : List Str) : List DeckNode → Bool
  | [] => true
  | n :: ns => nodeJoinOK anc n && forestJoinOK anc ns
end

/-- Does an id string begin with the synthesized-id marker `virtual_`? -/
def isVirtualId (s : Str) : Bool := leadsWith "virtual_".toList s

/-- Does a deck name begin with the hierarchy delimiter `::`? -/
def startsWithDelim (s : Str) : Bool := leadsWith "::".toList s

/-! # Helper lemmas -/

theorem dropWhile_head_false {p : Char → Bool} {l : Str} {b : Char} {t : Str}
    (h : l.dropWhile p = b :: t) : p b = false := by
  induction l with
  | nil => simp [List.dropWhile] at h
  | cons c cs ih =>
    rw [List.dropWhile_cons] at h
    by_cases hc : p c
    · exact ih (by simpa [hc] using h)
    · obtain ⟨hb, -⟩ := List.cons.inj (by simpa [hc] using h)
      subst hb
      exact eq_false_of_ne_true hc

theorem dropWhile_idem (p : Char → Bool) (l : Str) :
    (l.dropWhile p).dropWhile p = l.dropWhile p := by
  cases h : l.dropWhile p with
  | nil => rfl
  | cons b t => rw [List.dropWhile_cons, dropWhile_head_false h]; simp

theorem pyStrip_trimL (s : Str) : (pyStrip s).dropWhile isSpacePy = pyStrip s := by
  unfold pyStrip
  generalize hA : s.dropWhile isSpacePy = A
  cases hBr : (A.reverse.dropWhile isSpacePy).reverse with
  | nil => rfl
  | cons b u =>
    have hsplit : A = b :: (u ++ (A.reverse.takeWhile isSpacePy).reverse) := by
      conv =>
        lhs
        rw [← List.reverse_reverse A,
          ← List.takeWhile_append_dropWhile isSpacePy A.reverse]
      rw [List.reverse_append, hBr]
      simp
    have hpb : isSpacePy b = false := dropWhile_head_false (by rw [hA, hsplit])
    rw [List.dropWhile_cons, hpb]
    simp

theorem pyStrip_idem (s : Str) : pyStrip (pyStrip s) = pyStrip s := by
  have h1 := pyStrip_trimL s
  show (((pyStrip s).dropWhile isSpacePy).reverse.dropWhile isSpacePy).reverse = pyStrip s
  rw [h1]
  show ((((s.dropWhile isSpacePy).reverse.dropWhile
    isSpacePy).reverse).reverse.dropWhile isSpacePy).reverse = _
  rw [List.reverse_reverse, dropWhile_idem]
  rfl

theorem pyStrip_cleanHtmlL (s : Str) : pyStrip (cleanHtmlL s) = cleanHtmlL s := by
  by_cases h : s = []
  · subst h; rfl
  · rw [cleanHtmlL, if_neg h, pyStrip_idem]

theorem replaceF_no_trigger (c₀ : Char) (ps rep : Str) (n : Nat) :
    ∀ s : Str, c₀ ∉ s → replaceF (c₀ :: ps) rep n s = s := by
  induction n with
  | zero => intro s _; rfl
  | succ m ih =>
    intro s hs
    cases s with
    | nil => rfl
    | cons c rest =>
      have hne : c₀ ≠ c := fun e => hs (e ▸ List.mem_cons_self c rest)
      have ht : tryDrop (c₀ :: ps) (c :: rest) = none := by
        rw [tryDrop, if_neg hne]
      have hr : c₀ ∉ rest := fun hm => hs (List.mem_cons_of_mem c hm)
      rw [replaceF, ht, ih rest hr]

theorem pyReplace_no_trigger {c₀ : Char} {pat : Str} (hpat : pat.head? = some c₀)
    (s rep : Str) (h : c₀ ∉ s) : pyReplace s pat rep = s := by
  cases pat with
  | nil => simp at hpat
  | cons a as =>
    have ha : a = c₀ := by simpa using hpat
    subst ha
    exact replaceF_no_trigger a as rep s.length s h

theorem decodeEntities_no_amp {s : Str} (h : '&' ∉ s) : decodeEntities s = s := by
  unfold decodeEntities
  rw [pyReplace_no_trigger (show ("&nbsp;".toList).head? = some '&' by decide) s " ".toList h]
  rw [pyReplace_no_trigger (show ("&lt;".toList).head? = some '&' by decide) s "<".toList h]
  rw [pyReplace_no_trigger (show ("&gt;".toList).head? = some '&' by decide) s ">".toList h]
  rw [pyReplace_no_trigger (show ("&amp;".toList).head? = some '&' by decide) s "&".toList h]
  rw [pyReplace_no_trigger (show ("&quot;".toList).head? = some '&' by decide) s "\"".toList h]

theorem dropSoundF_no_bracket (n : Nat) : ∀ s : Str, '[' ∉ s → dropSoundF n s = s := by
  induction n with
  | zero => intro s _; rfl
  | succ m ih =>
    intro s hs
    cases s with
    | nil => rfl
    | cons c rest =>
      have hne : ¬ c = '[' := fun e => hs (e ▸ List.mem_cons_self c rest)
      have hr : '[' ∉ rest := fun hm => hs (List.mem_cons_of_mem c hm)
      simp only [dropSoundF, if_neg hne]
      rw [ih rest hr]

theorem brToNewlineF_no_lt (n : Nat) : ∀ s : Str, '<' ∉ s → brToNewlineF n s = s := by
  induction n with
  | zero => intro s _; rfl
  | succ m ih =>
    intro s hs
    cases s with
    | nil => rfl
    | cons c rest =>
      have hne : ¬ c = '<' := fun e => hs (e ▸ List.mem_cons_self c rest)
      have hr : '<' ∉ rest := fun hm => hs (List.mem_cons_of_mem c hm)
      simp only [brToNewlineF, if_neg hne]
      rw [ih rest hr]

theorem dropTagsF_no_lt (n : Nat) : ∀ s : Str, '<' ∉ s → dropTagsF n s = s := by
  induction n with
  | zero => intro s _; rfl
  | succ m ih =>
    intro s hs
    cases s with
    | nil => rfl
    | cons c rest =>
      have hne : ¬ c = '<' := fun e => hs (e ▸ List.mem_cons_self c rest)
      have hr : '<' ∉ rest := fun hm => hs (List.mem_cons_of_mem c hm)
      simp only [dropTagsF, if_neg hne]
      rw [ih rest hr]

theorem dropSound_no_bracket {s : Str} (h : '[' ∉ s) : dropSound s = s :=
  dropSoundF_no_bracket s.length s h

theorem brToNewline_no_lt {s : Str} (h : '<' ∉ s) : brToNewline s = s :=
  brToNewlineF_no_lt s.length s h

theorem dropTags_no_lt {s : Str} (h : '<' ∉ s) : dropTags s = s :=
  dropTagsF_no_lt s.length s h

/-- A string in which no sound reference, tag, or entity trigger occurs is
left unchanged by every pass of `clean_html` except the final strip. -/
theorem cleanHtmlL_fixpoint {t : Str} (hb : '[' ∉ t) (hlt : '<' ∉ t) (ha : '&' ∉ t)
    (hstrip : pyStrip t = t) : cleanHtmlL t = t := by
  by_cases h : t = []
  · subst h; rfl
  · rw [cleanHtmlL, if_neg h, dropSound_no_bracket hb, brToNewline_no_lt hlt,
      dropTags_no_lt hlt, decodeEntities_no_amp ha, hstrip]

/-! # Claims about the Text Sanitizer -/

/-- Claim C2 (corrected): `clean_html` decodes `&nbsp;`, `&lt;` and `&gt;`
before `&amp;`, so the `&` produced by decoding `&amp;` never recombines
into a decodable `&nbsp;`/`&lt;`/`&gt;`/`&amp;` — `"a &amp;lt; b"` maps to
`"a &lt; b"` and `"&amp;amp;"` to `"&amp;"` — but `&quot;` is decoded AFTER
`&amp;` (line 76 follows line 75), so `"&amp;quot;"` decodes all the way to
`"\""`. -/
theorem c2_entity_decode_order_amended :
    clean_html "a &amp;lt; b" = "a &lt; b" ∧
    clean_html "&amp;amp;" = "&amp;" ∧
    clean_html "&amp;gt;" = "&gt;" ∧
    clean_html "&amp;nbsp;" = "&nbsp;" ∧
    clean_html "&amp;quot;" = "\"" := by
  refine ⟨by decide, by decide, by decide, by decide, by decide⟩

/-- Claim C2 counterexample: the claim asserts that `&amp;` is decoded last
among the entity set and in particular that `clean_html "&amp;quot;"` yields
`"&quot;"`; in the code `&quot;` is decoded after `&amp;`, so the result is
`"\""` instead. -/
theorem c2_entity_decode_order_cex :
    clean_html "&amp;quot;" = "\"" ∧ clean_html "&amp;quot;" ≠ "&quot;" := by
  refine ⟨by decide, by decide⟩

/-- Claim C3 (corrected): `clean_html` is idempotent on every input whose
cleaned output contains no `'['`, `'<'` or `'&'` character (i.e. no further
strippable markup, sound reference, or decodable entity); a second
application then only re-strips an already-stripped string. -/
theorem c3_clean_html_idem_amended (s : String)
    (h : ∀ c ∈ (clean_html s).data, c ≠ '[' ∧ c ≠ '<' ∧ c ≠ '&') :
    clean_html (clean_html s) = clean_html s := by
  have hd : (clean_html s).data = cleanHtmlL s.data := rfl
  have hb : '[' ∉ cleanHtmlL s.data := fun hm => (h _ (hd ▸ hm)).1 rfl
  have hlt : '<' ∉ cleanHtmlL s.data := fun hm => (h _ (hd ▸ hm)).2.1 rfl
  have ha : '&' ∉ cleanHtmlL s.data := fun hm => (h _ (hd ▸ hm)).2.2 rfl
  have hstrip := pyStrip_cleanHtmlL s.data
  calc clean_html (clean_html s) = ⟨cleanHtmlL (cleanHtmlL s.data)⟩ := rfl
    _ = ⟨cleanHtmlL s.data⟩ := by rw [cleanHtmlL_fixpoint hb hlt ha hstrip]
    _ = clean_html s := rfl

theorem c3_clean_html_idem_witness :
    clean_html (clean_html "  bonjour le monde  ") = clean_html "  bonjour le monde  " :=
  c3_clean_html_idem_amended "  bonjour le monde  " (by decide)

/-- Claim C3 counterexample: `clean_html` is not idempotent on every string.
`clean_html "&lt;b&gt;"` decodes the entities to `"<b>"`, and a second
application then strips `<b>` as a tag, yielding `""`. -/
theorem c3_clean_html_idem_cex :
    clean_html "&lt;b&gt;" = "<b>" ∧ clean_html (clean_html "&lt;b&gt;") = "" ∧
    clean_html (clean_html "&lt;b&gt;") ≠ clean_html "&lt;b&gt;" := by
  refine ⟨by decide, by decide, by decide⟩

/-! # Claims about the Archive Reader -/

/-- Claim C7: after extraction, `extract_colpkg` returns the path of
`collection.anki21` if present, else the path of `collection.anki2` if
present, and errors out exactly when neither name is present. -/
theorem c7_db_name_priority (files : List String) (dir : String) :
    ("collection.anki21" ∈ files →
      extract_colpkg files dir = .ok (dir ++ "/" ++ "collection.anki21")) ∧
    ("collection.anki21" ∉ files → "collection.anki2" ∈ files →
      extract_colpkg files dir = .ok (dir ++ "/" ++ "collection.anki2")) ∧
    ((∃ e, extract_colpkg files dir = .error e) ↔
      ("collection.anki21" ∉ files ∧ "collection.anki2" ∉ files)) := by
  by_cases h1 : "collection.anki21" ∈ files <;>
    by_cases h2 : "collection.anki2" ∈ files <;>
    simp [extract_colpkg, h1, h2]

theorem c7_db_name_priority_witness :
    extract_colpkg ["collection.anki2", "collection.anki21"] "d" =
      .ok ("d" ++ "/" ++ "collection.anki21") ∧
    extract_colpkg ["media", "collection.anki2"] "d" =
      .ok ("d" ++ "/" ++ "collection.anki2") ∧
    (∃ e, extract_colpkg ["media"] "d" = .error e) :=
  ⟨(c7_db_name_priority ["collection.anki2", "collection.anki21"] "d").1 (by decide),
   (c7_db_name_priority ["media", "collection.anki2"] "d").2.1 (by decide) (by decide),
   (c7_db_name_priority ["media"] "d").2.2.mpr ⟨by decide, by decide⟩⟩

/-- Claim C5 (corrected): if the archive has no `media` entry, or the entry
decodes as UTF-8 but fails to parse as JSON, `extract_media` logs the
warning and returns 0 non-fatally.  (If the entry's bytes are not valid
UTF-8, the `UnicodeDecodeError` is not among the caught exception types and
propagates instead — see the counterexample.) -/
theorem c5_media_map_nonfatal (decode : List Nat → Option String)
    (parseMap : String → Option (List (String × String))) (z : Zip) (dir : String)
    (h : zipRead z "media" = none ∨
      ∃ bs s, zipRead z "media" = some bs ∧ decode bs = some s ∧ parseMap s = none) :
    (extract_media decode parseMap z dir).2 = .ok 0 ∧
    MediaEffect.warnNoMedia ∈ (extract_media decode parseMap z dir).1 := by
  rcases h with h | ⟨bs, s, h1, h2, h3⟩
  · simp [extract_media, h]
  · simp [extract_media, h1, h2, h3]

theorem c5_media_map_nonfatal_witness :
    (extract_media asciiDecode neverParses [] "out").2 = .ok 0 ∧
    MediaEffect.warnNoMedia ∈ (extract_media asciiDecode neverParses [] "out").1 :=
  c5_media_map_nonfatal asciiDecode neverParses [] "out" (Or.inl (by decide))

/-- Claim C5 counterexample: an archive whose `media` entry is present but
holds the single byte `0xFF` (not decodable as UTF-8) makes `extract_media`
raise (`UnicodeDecodeError` is not caught by the `except` clause at line 43)
rather than warn and return 0. -/
theorem c5_media_map_nonfatal_cex :
    (extract_media asciiDecode neverParses [⟨"media", [255]⟩] "out").2 =
      .error "UnicodeDecodeError" ∧
    (extract_media asciiDecode neverParses [⟨"media", [255]⟩] "out").2 ≠ .ok 0 := by
  refine ⟨by decide, by decide⟩

/-- Claim C9: `extract_media` creates the `media` subdirectory of
`output_dir` unconditionally, before reading the mapping entry: on every
execution path (mapping absent, undecodable, unparsable, or media written)
the very first effect is the `mkdir`. -/
theorem c9_media_dir_always_created (decode : List Nat → Option String)
    (parseMap : String → Option (List (String × String))) (z : Zip) (dir : String) :
    ((extract_media decode parseMap z dir).1).head? =
      some (MediaEffect.mkdir (dir ++ "/" ++ "media")) := by
  rcases hz : zipRead z "media" with _ | bs
  · simp [extract_media, hz]
  · rcases hd : decode bs with _ | s
    · simp [extract_media, hz, hd]
    · rcases hp : parseMap s with _ | mm
      · simp [extract_media, hz, hd, hp]
      · simp [extract_media, hz, hd, hp]

/-! # Claims about the card dedup loop -/

theorem find?_min_ord {p : CardRow → Bool} {l : List CardRow} (hs : List.Pairwise cardLe l)
    {c : CardRow} (hf : l.find? p = some c) :
    ∀ c' ∈ l, p c' = true → c.ord ≤ c'.ord := by
  induction l with
  | nil => simp at hf
  | cons a t ih =>
    rcases List.pairwise_cons.mp hs with ⟨ha, ht⟩
    by_cases hp : p a
    · rw [List.find?_cons_of_pos _ hp] at hf
      obtain rfl := Option.some.inj hf
      intro c' hc' _
      rcases List.mem_cons.mp hc' with rfl | hm
      · exact le_refl _
      · exact ha c' hm
    · rw [List.find?_cons_of_neg _ hp] at hf
      intro c' hc' hpc'
      rcases List.mem_cons.mp hc' with rfl | hm
      · exact absurd hpc' (by simpa using hp)
      · exact ih ht hf c' hm hpc'

theorem cardsByNoteAux_filter_of_seen (notes : List NoteRow) :
    ∀ (l : List CardRow) (seen : List Int) (n : Int), n ∈ seen →
      (cardsByNoteAux notes l seen).filter (fun e => e.1 == n) = [] := by
  intro l
  induction l with
  | nil => intro seen n _; rfl
  | cons a t ih =>
    intro seen n hn
    by_cases hm : a.nid ∈ seen
    · simp only [cardsByNoteAux, if_pos hm]
      exact ih seen n hn
    · simp only [cardsByNoteAux, if_neg hm]
      have hne : (a.nid == n) = false := by
        have : a.nid ≠ n := fun e => hm (e ▸ hn)
        simpa using this
      rw [List.filter_cons]
      simp only [hne]
      exact ih (a.nid :: seen) n (List.mem_cons_of_mem _ hn)

theorem cardsByNoteAux_filter_found (notes : List NoteRow) :
    ∀ (l : List CardRow) (seen : List Int) (n : Int) (c : CardRow), n ∉ seen →
      l.find? (fun x => x.nid == n) = some c →
      (cardsByNoteAux notes l seen).filter (fun e => e.1 == n) =
        [(n, buildCard notes c)] := by
  intro l
  induction l with
  | nil => intro seen n c _ hf; simp at hf
  | cons a t ih =>
    intro seen n c hn hf
    by_cases ha : a.nid = n
    · rw [List.find?_cons_of_pos _ (by simpa using ha)] at hf
      obtain rfl := Option.some.inj hf
      have hm : a.nid ∉ seen := fun e => hn (ha ▸ e)
      simp only [cardsByNoteAux, if_neg hm]
      rw [List.filter_cons]
      have hpos : ((a.nid, buildCard notes a).1 == n) = true := by simpa using ha
      simp only [hpos, if_pos]
      rw [cardsByNoteAux_filter_of_seen notes t (a.nid :: seen) n
        (ha ▸ List.mem_cons_self _ _), ha]
    · rw [List.find?_cons_of_neg _ (by simpa using ha)] at hf
      by_cases hm : a.nid ∈ seen
      · simp only [cardsByNoteAux, if_pos hm]
        exact ih seen n c hn hf
      · simp only [cardsByNoteAux, if_neg hm]
        rw [List.filter_cons]
        have hne : ((a.nid, buildCard notes a).1 == n) = false := by simpa using ha
        simp only [hne]
        have hn' : n ∉ a.nid :: seen := by
          intro hmem
          rcases List.mem_cons.mp hmem with rfl | h2
          · exact ha rfl
          · exact hn h2
        exact ih (a.nid :: seen) n c hn' hf

theorem cardsByNoteAux_keys (notes : List NoteRow) :
    ∀ (l : List CardRow) (seen : List Int) (n : Int), (∃ c ∈ l, c.nid = n) →
      n ∈ seen ∨ ∃ e ∈ cardsByNoteAux notes l seen, e.1 = n := by
  intro l
  induction l with
  | nil =>
    intro seen n h
    rcases h with ⟨c, hc, _⟩
    simp at hc
  | cons a t ih =>
    intro seen n h
    rcases h with ⟨c, hc, hcn⟩
    by_cases hm : a.nid ∈ seen
    · simp only [cardsByNoteAux, if_pos hm]
      rcases List.mem_cons.mp hc with rfl | hct
      · exact Or.inl (hcn ▸ hm)
      · exact ih seen n ⟨c, hct, hcn⟩
    · simp only [cardsByNoteAux, if_neg hm]
      rcases List.mem_cons.mp hc with rfl | hct
      · exact Or.inr ⟨(c.nid, buildCard notes c), List.mem_cons_self _ _, hcn⟩
      · rcases ih (a.nid :: seen) n ⟨c, hct, hcn⟩ with hseen | ⟨e, he, hen⟩
        · rcases List.mem_cons.mp hseen with rfl | h2
          · exact Or.inr ⟨(a.nid, buildCard notes a), List.mem_cons_self _ _, rfl⟩
          · exact Or.inl h2
        · exact Or.inr ⟨e, List.mem_cons_of_mem _ he, hen⟩

/-- Claim C1: for every note id that has at least one row in the cards
table, the dedup map built by `parse_anki_collection` holds exactly one
entry for that note, built from a card of that note with minimal `ord`
(the first one encountered in ascending-`ord` order), and that card object
is in the output card list. -/
theorem c1_one_card_per_note_min_ord (dj : List (Str × Option Str)) (notes : List NoteRow)
    (cs : List CardRow) (n : Int) (h : ∃ c ∈ cs, c.nid = n) :
    ∃ c ∈ cs, c.nid = n ∧ (∀ c' ∈ cs, c'.nid = n → c.ord ≤ c'.ord) ∧
      ((cardsByNote notes cs).filter (fun e => e.1 == n)).map Prod.snd =
        [buildCard notes c] ∧
      buildCard notes c ∈ (parse_anki_collection dj notes cs).cards := by
  have hperm : (sortCards cs).Perm cs := List.perm_insertionSort cardLe cs
  obtain ⟨c₀, hc₀, hc₀n⟩ := h
  have hmemL : ∃ x ∈ sortCards cs, (fun x : CardRow => x.nid == n) x = true :=
    ⟨c₀, hperm.mem_iff.mpr hc₀, by simpa using hc₀n⟩
  obtain ⟨c, hfind⟩ := Option.isSome_iff_exists.mp (List.find?_isSome.mpr hmemL)
  have hcnn : c.nid = n := by simpa using List.find?_some hfind
  have hcmem : c ∈ cs := hperm.mem_iff.mp (List.mem_of_find?_eq_some hfind)
  have hsorted : List.Pairwise cardLe (sortCards cs) := List.sorted_insertionSort cardLe cs
  have hfilter := cardsByNoteAux_filter_found notes (sortCards cs) [] n c (by simp) hfind
  refine ⟨c, hcmem, hcnn, ?_, ?_, ?_⟩
  · intro c' hc' hcn'
    exact find?_min_ord hsorted hfind c' (hperm.mem_iff.mpr hc') (by simpa using hcn')
  · show ((cardsByNoteAux notes (sortCards cs) []).filter
      (fun e => e.1 == n)).map Prod.snd = [buildCard notes c]
    rw [hfilter]
    rfl
  · have hmem : (n, buildCard notes c) ∈ cardsByNote notes cs := by
      have hx : (n, buildCard notes c) ∈
          (cardsByNoteAux notes (sortCards cs) []).filter (fun e => e.1 == n) := by
        rw [hfilter]
        exact List.mem_singleton_self _
      exact List.mem_of_mem_filter hx
    exact List.mem_map.mpr ⟨(n, buildCard notes c), hmem, rfl⟩

theorem c1_one_card_per_note_min_ord_witness :
    ∃ c ∈ ([⟨10, 1, 5, 1⟩, ⟨11, 1, 6, 0⟩] : List CardRow), c.nid = 1 ∧
      (∀ c' ∈ ([⟨10, 1, 5, 1⟩, ⟨11, 1, 6, 0⟩] : List CardRow),
        c'.nid = 1 → c.ord ≤ c'.ord) ∧
      ((cardsByNote [⟨1, 0, "A\x1fB".toList, []⟩] [⟨10, 1, 5, 1⟩, ⟨11, 1, 6, 0⟩]).filter
        (fun e => e.1 == 1)).map Prod.snd =
        [buildCard [⟨1, 0, "A\x1fB".toList, []⟩] c] ∧
      buildCard [⟨1, 0, "A\x1fB".toList, []⟩] c ∈
        (parse_anki_collection [] [⟨1, 0, "A\x1fB".toList, []⟩]
          [⟨10, 1, 5, 1⟩, ⟨11, 1, 6, 0⟩]).cards :=
  c1_one_card_per_note_min_ord [] [⟨1, 0, "A\x1fB".toList, []⟩]
    [⟨10, 1, 5, 1⟩, ⟨11, 1, 6, 0⟩] 1 (by decide)

/-- Claim C8: a card row whose note id has no row in the notes table still
produces an output card — with `deckId` the stringified deck id and all four
text fields empty — and its note id still occupies an entry of the per-note
dedup map. -/
theorem c8_missing_note_blank_card (notes : List NoteRow) (cs : List CardRow) (c : CardRow)
    (hc : c ∈ cs) (hn : ∀ nr ∈ notes, nr.id ≠ c.nid) :
    buildCard notes c =
      { deckId := toString c.did, front := "", frontClean := "",
        back := "", backClean := "" } ∧
    ∃ e ∈ cardsByNote notes cs, e.1 = c.nid := by
  constructor
  · have hlook : lookupNote notes c.nid = none := by
      rw [lookupNote, List.find?_eq_none]
      intro nr hmem
      simpa using hn nr (List.mem_reverse.mp hmem)
    rw [buildCard, hlook]
    rfl
  · have hmem : c ∈ sortCards cs := (List.perm_insertionSort cardLe cs).mem_iff.mpr hc
    rcases cardsByNoteAux_keys notes (sortCards cs) [] c.nid ⟨c, hmem, rfl⟩ with h0 | h1
    · simp at h0
    · exact h1

theorem c8_missing_note_blank_card_witness :
    buildCard [⟨2, 0, "X".toList, []⟩] ⟨10, 1, 5, 0⟩ =
      { deckId := toString (5 : Int), front := "", frontClean := "",
        back := "", backClean := "" } ∧
    ∃ e ∈ cardsByNote [⟨2, 0, "X".toList, []⟩] [⟨10, 1, 5, 0⟩], e.1 = 1 :=
  c8_missing_note_blank_card [⟨2, 0, "X".toList, []⟩] [⟨10, 1, 5, 0⟩] ⟨10, 1, 5, 0⟩
    (by decide) (by decide)

/-! # Deck tree lemmas -/

theorem nodePaths_mk (i nm fp : Str) (cs : List DeckNode) :
    nodePaths (.mk i nm fp cs) = fp :: forestPaths cs := by
  rw [nodePaths]

theorem forestPaths_cons (n : DeckNode) (ns : List DeckNode) :
    forestPaths (n :: ns) = nodePaths n ++ forestPaths ns := by
  rw [forestPaths]

theorem forestPaths_append (f g : List DeckNode) :
    forestPaths (f ++ g) = forestPaths f ++ forestPaths g := by
  induction f with
  | nil => rfl
  | cons n ns ih =>
    rw [List.cons_append, forestPaths_cons, forestPaths_cons, ih, List.append_assoc]

theorem forestIds_cons (n : DeckNode) (ns : List DeckNode) :
    forestIds (n :: ns) = nodeIds n ++ forestIds ns := by
  rw [forestIds]

theorem forestIds_append (f g : List DeckNode) :
    forestIds (f ++ g) = forestIds f ++ forestIds g := by
  induction f with
  | nil => rfl
  | cons n ns ih =>
    rw [List.cons_append, forestIds_cons, forestIds_cons, ih, List.append_assoc]

theorem top_mem_paths {f : List DeckNode} {x : Str} (h : x ∈ topPaths f) :
    x ∈ forestPaths f := by
  induction f with
  | nil => simp [topPaths] at h
  | cons n ns ih =>
    rcases n with ⟨i, nm, fp, cs⟩
    rw [forestPaths_cons, nodePaths_mk]
    rcases List.mem_cons.mp h with rfl | hm
    · exact List.mem_append_left _ (List.mem_cons_self _ _)
    · exact List.mem_append_right _ (ih hm)

mutual
theorem attachNode_id (p : Str) (child : DeckNode) :
    ∀ n : DeckNode, p ∉ nodePaths n → attachNode p child n = n
  | .mk i nm fp cs, h => by
    rw [nodePaths_mk] at h
    have h1 : ¬ fp = p := fun e => h (e ▸ List.mem_cons_self _ _)
    have h2 : p ∉ forestPaths cs := fun hm => h (List.mem_cons_of_mem _ hm)
    rw [attachNode, if_neg h1, attachForest_id p child cs h2]
theorem attachForest_id (p : Str) (child : DeckNode) :
    ∀ f : List DeckNode, p ∉ forestPaths f → attachForest p child f = f
  | [], _ => rfl
  | n :: ns, h => by
    rw [forestPaths_cons] at h
    have h1 : p ∉ nodePaths n := fun hm => h (List.mem_append_left _ hm)
    have h2 : p ∉ forestPaths ns := fun hm => h (List.mem_append_right _ hm)
    rw [attachForest, attachNode_id p child n h1, attachForest_id p child ns h2]
end

theorem forestPaths_singleton (n : DeckNode) : forestPaths [n] = nodePaths n := by
  rw [forestPaths_cons, forestPaths, List.append_nil]

theorem forestIds_singleton (n : DeckNode) : forestIds [n] = nodeIds n := by
  rw [forestIds_cons, forestIds, List.append_nil]

mutual
theorem attachNode_paths (p : Str) (child : DeckNode) :
    ∀ n : DeckNode, (nodePaths n).Nodup → p ∈ nodePaths n →
      (nodePaths (attachNode p child n)).Perm (nodePaths child ++ nodePaths n)
  | .mk i nm fp cs, hnd, hp => by
    rw [nodePaths_mk] at hnd hp ⊢
    by_cases hfp : fp = p
    · rw [attachNode, if_pos hfp, nodePaths_mk, forestPaths_append, forestPaths_singleton]
      have h1 : (nodePaths child ++ fp :: forestPaths cs).Perm
          (fp :: (nodePaths child ++ forestPaths cs)) := List.perm_middle
      have h2 : (fp :: (nodePaths child ++ forestPaths cs)).Perm
          (fp :: (forestPaths cs ++ nodePaths child)) :=
        List.Perm.cons fp List.perm_append_comm
      exact (h1.trans h2).symm
    · have hpc : p ∈ forestPaths cs := by
        rcases List.mem_cons.mp hp with h | h
        · exact absurd h.symm hfp
        · exact h
      have hndc : (forestPaths cs).Nodup := (List.nodup_cons.mp hnd).2
      rw [attachNode, if_neg hfp, nodePaths_mk]
      have ih := attachForest_paths p child cs hndc hpc
      exact (List.Perm.cons fp ih).trans List.perm_middle.symm
theorem attachForest_paths (p : Str) (child : DeckNode) :
    ∀ f : List DeckNode, (forestPaths f).Nodup → p ∈ forestPaths f →
      (forestPaths (attachForest p child f)).Perm (nodePaths child ++ forestPaths f)
  | [], _, hp => by rw [forestPaths] at hp; exact absurd hp (List.not_mem_nil p)
  | n :: ns, hnd, hp => by
    rw [forestPaths_cons] at hnd hp ⊢
    rcases List.nodup_append.mp hnd with ⟨hnd1, hnd2, hdisj⟩
    rw [attachForest, forestPaths_cons]
    rcases List.mem_append.mp hp with hin | hin
    · have hnot : p ∉ forestPaths ns := fun hm => hdisj hin hm
      rw [attachForest_id p child ns hnot]
      have h1 := (attachNode_paths p child n hnd1 hin).append_right (forestPaths ns)
      rw [List.append_assoc] at h1
      exact h1
    · have hnot : p ∉ nodePaths n := fun hm => hdisj hm hin
      rw [attachNode_id p child n hnot]
      have h1 := (attachForest_paths p child ns hnd2 hin).append_left (nodePaths n)
      have h2 : (nodePaths n ++ (nodePaths child ++ forestPaths ns)).Perm
          (nodePaths child ++ (nodePaths n ++ forestPaths ns)) := by
        rw [← List.append_assoc, ← List.append_assoc]
        exact (List.perm_append_comm).append_right (forestPaths ns)
      exact h1.trans h2
end

mutual
theorem attachNode_child_mem (p : Str) (child : DeckNode) :
    ∀ n : DeckNode, p ∈ nodePaths n → ∀ x ∈ nodePaths child,
      x ∈ nodePaths (attachNode p child n)
  | .mk i nm fp cs, hp, x, hx => by
    rw [nodePaths_mk] at hp
    by_cases hfp : fp = p
    · rw [attachNode, if_pos hfp, nodePaths_mk, forestPaths_append, forestPaths_singleton]
      exact List.mem_cons_of_mem _ (List.mem_append_right _ hx)
    · have hpc : p ∈ forestPaths cs := by
        rcases List.mem_cons.mp hp with h | h
        · exact absurd h.symm hfp
        · exact h
      rw [attachNode, if_neg hfp, nodePaths_mk]
      exact List.mem_cons_of_mem _ (attachForest_child_mem p child cs hpc x hx)
theorem attachForest_child_mem (p : Str) (child : DeckNode) :
    ∀ f : List DeckNode, p ∈ forestPaths f → ∀ x ∈ nodePaths child,
      x ∈ forestPaths (attachForest p child f)
  | [], hp, _, _ => by rw [forestPaths] at hp; exact absurd hp (List.not_mem_nil p)
  | n :: ns, hp, x, hx => by
    rw [forestPaths_cons] at hp
    rw [attachForest, forestPaths_cons]
    rcases List.mem_append.mp hp with hin | hin
    · exact List.mem_append_left _ (attachNode_child_mem p child n hin x hx)
    · exact List.mem_append_right _ (attachForest_child_mem p child ns hin x hx)
end

mutual
theorem attachNode_paths_mono (p : Str) (child : DeckNode) :
    ∀ n : DeckNode, ∀ x ∈ nodePaths n, x ∈ nodePaths (attachNode p child n)
  | .mk i nm fp cs, x, hx => by
    rw [nodePaths_mk] at hx
    by_cases hfp : fp = p
    · rw [attachNode, if_pos hfp, nodePaths_mk, forestPaths_append, forestPaths_singleton]
      rcases List.mem_cons.mp hx with rfl | hm
      · exact List.mem_cons_self _ _
      · exact List.mem_cons_of_mem _ (List.mem_append_left _ hm)
    · rw [attachNode, if_neg hfp, nodePaths_mk]
      rcases List.mem_cons.mp hx with rfl | hm
      · exact List.mem_cons_self _ _
      · exact List.mem_cons_of_mem _ (attachForest_paths_mono p child cs x hm)
theorem attachForest_paths_mono (p : Str) (child : DeckNode) :
    ∀ f : List DeckNode, ∀ x ∈ forestPaths f, x ∈ forestPaths (attachForest p child f)
  | [], x, hx => by rw [forestPaths] at hx; exact absurd hx (List.not_mem_nil x)
  | n :: ns, x, hx => by
    rw [forestPaths_cons] at hx
    rw [attachForest, forestPaths_cons]
    rcases List.mem_append.mp hx with hin | hin
    · exact List.mem_append_left _ (attachNode_paths_mono p child n x hin)
    · exact List.mem_append_right _ (attachForest_paths_mono p child ns x hin)
end

mutual
theorem attachNode_ids (p : Str) (child : DeckNode) :
    ∀ n : DeckNode, ∀ x ∈ nodeIds (attachNode p child n),
      x ∈ nodeIds n ∨ x ∈ nodeIds child
  | .mk i nm fp cs, x, hx => by
    rw [nodeIds]
    by_cases hfp : fp = p
    · rw [attachNode, if_pos hfp, nodeIds, forestIds_append, forestIds_singleton] at hx
      rcases List.mem_cons.mp hx with rfl | hm
      · exact Or.inl (List.mem_cons_self _ _)
      · rcases List.mem_append.mp hm with h | h
        · exact Or.inl (List.mem_cons_of_mem _ h)
        · exact Or.inr h
    · rw [attachNode, if_neg hfp, nodeIds] at hx
      rcases List.mem_cons.mp hx with rfl | hm
      · exact Or.inl (List.mem_cons_self _ _)
      · rcases attachForest_ids p child cs x hm with h | h
        · exact Or.inl (List.mem_cons_of_mem _ h)
        · exact Or.inr h
theorem attachForest_ids (p : Str) (child : DeckNode) :
    ∀ f : List DeckNode, ∀ x ∈ forestIds (attachForest p child f),
      x ∈ forestIds f ∨ x ∈ nodeIds child
  | [], x, hx => by rw [attachForest, forestIds] at hx; exact absurd hx (List.not_mem_nil x)
  | n :: ns, x, hx => by
    rw [attachForest, forestIds_cons] at hx
    rw [forestIds_cons]
    rcases List.mem_append.mp hx with hin | hin
    · rcases attachNode_ids p child n x hin with h | h
      · exact Or.inl (List.mem_append_left _ h)
      · exact Or.inr h
    · rcases attachForest_ids p child ns x hin with h | h
      · exact Or.inl (List.mem_append_right _ h)
      · exact Or.inr h
end

theorem attachNode_fields (p : Str) (child : DeckNode) (n : DeckNode) :
    (attachNode p child n).id = n.id ∧ (attachNode p child n).name = n.name ∧
    (attachNode p child n).fullPath = n.fullPath := by
  rcases n with ⟨i, nm, fp, cs⟩
  rw [attachNode]
  split <;> exact ⟨rfl, rfl, rfl⟩

theorem attachForest_map (p : Str) (child : DeckNode) :
    ∀ f : List DeckNode, attachForest p child f = f.map (attachNode p child)
  | [] => rfl
  | n :: ns => by rw [attachForest, List.map_cons, attachForest_map p child ns]

theorem attachForest_topPaths (p : Str) (child : DeckNode) (f : List DeckNode) :
    topPaths (attachForest p child f) = topPaths f := by
  rw [topPaths, topPaths, attachForest_map, List.map_map]
  apply List.map_congr_left
  intro n _
  exact (attachNode_fields p child n).2.2

theorem splitDelim_guard {s : Str} (h : startsWithDelim s = false) :
    ∀ rest', splitDelim s = [] :: rest' → rest' = [] := by
  intro rest' he
  rw [splitDelim.eq_def] at he
  split at he
  · exact (List.cons.inj he).2.symm
  · rw [show startsWithDelim (':' :: ':' :: _) = true from rfl] at h
    exact Bool.noConfusion h
  · split at he
    · simp at he
    · simp at he


theorem splitDelim_append {lbl : Str} (h : ':' ∉ lbl) (rest : Str) :
    splitDelim (lbl ++ "::".toList ++ rest) = lbl :: splitDelim rest := by
  induction lbl with
  | nil =>
    show splitDelim (':' :: ':' :: rest) = [] :: splitDelim rest
    rfl
  | cons c lbl' ih =>
    have hc : ¬ c = ':' := fun e => h (e ▸ List.mem_cons_self _ _)
    have h' : ':' ∉ lbl' := fun hm => h (List.mem_cons_of_mem _ hm)
    show splitDelim (c :: (lbl' ++ "::".toList ++ rest)) = (c :: lbl') :: splitDelim rest
    rw [splitDelim.eq_def]
    split
    · rename_i heq
      exact absurd heq (by simp)
    · rename_i heq
      exact absurd (List.cons.inj heq).1 hc
    · rename_i hcond heq
      obtain ⟨he1, he2⟩ := List.cons.inj heq
      subst he1
      subst he2
      rw [ih h']

theorem newNode_paths (d : Deck) (part cur' : Str) :
    nodePaths (newNode d part cur') = [cur'] := by
  rw [newNode, nodePaths_mk, forestPaths]

theorem newNode_ids (d : Deck) (part cur' : Str) :
    nodeIds (newNode d part cur') =
      [if cur' = d.name then d.id else "virtual_".toList ++ cur'] := by
  rw [newNode, nodeIds, forestIds]

theorem stepForest_of_mem {d : Deck} {part cur' : Str} {par : Option Str}
    {f : List DeckNode} (h : cur' ∈ forestPaths f) :
    stepForest d part cur' par f = f := by
  rw [stepForest.eq_def, if_pos h]

theorem stepForest_none_top {d : Deck} {part cur' : Str} {f : List DeckNode}
    (h : cur' ∉ forestPaths f) :
    stepForest d part cur' none f = f ++ [newNode d part cur'] := by
  rw [stepForest.eq_def, if_neg h]
  exact if_neg (fun ht => h (top_mem_paths ht))

theorem stepForest_some {d : Deck} {part cur' pp : Str} {f : List DeckNode}
    (h : cur' ∉ forestPaths f) :
    stepForest d part cur' (some pp) f = attachForest pp (newNode d part cur') f := by
  rw [stepForest.eq_def, if_neg h]

/-- The parent pointer, when present, refers to an existing path. -/
def ParOK (f : List DeckNode) : Option Str → Prop
  | none => True
  | some pp => pp ∈ forestPaths f

theorem stepForest_nodup {d : Deck} {part cur' : Str} {par : Option Str}
    {f : List DeckNode} (hnd : (forestPaths f).Nodup) (hpar : ParOK f par) :
    (forestPaths (stepForest d part cur' par f)).Nodup := by
  by_cases h : cur' ∈ forestPaths f
  · rw [stepForest_of_mem h]; exact hnd
  · rcases par with _ | pp
    · rw [stepForest_none_top h, forestPaths_append, forestPaths_singleton, newNode_paths]
      exact (List.nodup_cons.mpr ⟨h, hnd⟩).perm (List.perm_append_singleton cur' _).symm
    · rw [stepForest_some h]
      have hperm := attachForest_paths pp (newNode d part cur') f hnd hpar
      rw [newNode_paths] at hperm
      have hperm' : (forestPaths (attachForest pp (newNode d part cur') f)).Perm
          (cur' :: forestPaths f) := by simpa using hperm
      exact (List.nodup_cons.mpr ⟨h, hnd⟩).perm hperm'.symm

theorem stepForest_mem_cur {d : Deck} {part cur' : Str} {par : Option Str}
    {f : List DeckNode} (hpar : ParOK f par) :
    cur' ∈ forestPaths (stepForest d part cur' par f) := by
  by_cases h : cur' ∈ forestPaths f
  · rw [stepForest_of_mem h]; exact h
  · rcases par with _ | pp
    · rw [stepForest_none_top h, forestPaths_append, forestPaths_singleton, newNode_paths]
      exact List.mem_append_right _ (List.mem_cons_self _ _)
    · rw [stepForest_some h]
      exact attachForest_child_mem pp _ f hpar cur'
        (by rw [newNode_paths]; exact List.mem_cons_self _ _)

theorem stepForest_paths_mono (d : Deck) (part cur' : Str) (par : Option Str)
    (f : List DeckNode) : ∀ x ∈ forestPaths f,
      x ∈ forestPaths (stepForest d part cur' par f) := by
  intro x hx
  by_cases h : cur' ∈ forestPaths f
  · rw [stepForest_of_mem h]; exact hx
  · rcases par with _ | pp
    · rw [stepForest_none_top h, forestPaths_append]
      exact List.mem_append_left _ hx
    · rw [stepForest_some h]
      exact attachForest_paths_mono pp _ f x hx

theorem walkParts_nodup (d : Deck) :
    ∀ (parts : List Str) (f : List DeckNode) (cur : Str) (par : Option Str),
      (forestPaths f).Nodup → ParOK f par →
      (forestPaths (walkParts d parts f cur par)).Nodup := by
  intro parts
  induction parts with
  | nil => intro f cur par hnd _; exact hnd
  | cons part rest ih =>
    intro f cur par hnd hpar
    simp only [walkParts]
    exact ih _ _ _ (stepForest_nodup hnd hpar) (stepForest_mem_cur hpar)

theorem build_deck_tree_nodup (decks : List Deck) :
    (forestPaths (build_deck_tree decks)).Nodup := by
  rw [build_deck_tree]
  have H : ∀ (ds : List Deck) (f : List DeckNode), (forestPaths f).Nodup →
      (forestPaths (ds.foldl
        (fun f d => walkParts d (splitDelim d.name) f [] none) f)).Nodup := by
    intro ds
    induction ds with
    | nil => intro f hnd; exact hnd
    | cons d rest ih =>
      intro f hnd
      rw [List.foldl_cons]
      exact ih _ (walkParts_nodup d (splitDelim d.name) f [] none hnd trivial)
  exact H _ [] (by rw [forestPaths]; exact List.nodup_nil)

theorem forestJoinOK_cons (anc : List Str) (n : DeckNode) (ns : List DeckNode) :
    forestJoinOK anc (n :: ns) = (nodeJoinOK anc n && forestJoinOK anc ns) := by
  rw [forestJoinOK]

theorem forestJoinOK_append (anc : List Str) (f g : List DeckNode) :
    forestJoinOK anc (f ++ g) = (forestJoinOK anc f && forestJoinOK anc g) := by
  induction f with
  | nil => rw [List.nil_append, forestJoinOK, Bool.true_and]
  | cons n ns ih =>
    rw [List.cons_append, forestJoinOK_cons, forestJoinOK_cons, ih, Bool.and_assoc]

theorem joinWith_snoc (sep : Str) : ∀ (xs : List Str) (y : Str), xs ≠ [] →
    joinWith sep (xs ++ [y]) = joinWith sep xs ++ sep ++ y
  | [], _, h => absurd rfl h
  | [x], y, _ => rfl
  | x :: x' :: xs, y, _ => by
    show x ++ sep ++ joinWith sep ((x' :: xs) ++ [y]) =
      (x ++ sep ++ joinWith sep (x' :: xs)) ++ sep ++ y
    rw [joinWith_snoc sep (x' :: xs) y (by simp), ← List.append_assoc, ← List.append_assoc]

theorem joinPath_snoc {xs : List Str} (y : Str) (h : xs ≠ []) :
    joinPath (xs ++ [y]) = joinPath xs ++ "::".toList ++ y :=
  joinWith_snoc _ xs y h

mutual
theorem attachNode_joinOK (pp ci cnm : Str) :
    ∀ (anc : List Str) (n : DeckNode), nodeJoinOK anc n = true →
      nodeJoinOK anc
        (attachNode pp (DeckNode.mk ci cnm (pp ++ "::".toList ++ cnm) []) n) = true
  | anc, .mk i nm fp cs, hok => by
    rw [nodeJoinOK, Bool.and_eq_true] at hok
    obtain ⟨h1, h2⟩ := hok
    have hfpjoin : fp = joinPath (anc ++ [nm]) := by simpa using h1
    by_cases hfp : fp = pp
    · rw [attachNode, if_pos hfp, nodeJoinOK, forestJoinOK_append]
      rw [Bool.and_eq_true, Bool.and_eq_true]
      refine ⟨h1, h2, ?_⟩
      rw [forestJoinOK_cons, nodeJoinOK]
      have hne : anc ++ [nm] ≠ [] := by simp
      rw [joinPath_snoc cnm hne, ← hfpjoin, hfp]
      simp [forestJoinOK]
    · rw [attachNode, if_neg hfp, nodeJoinOK, Bool.and_eq_true]
      exact ⟨h1, attachForest_joinOK pp ci cnm (anc ++ [nm]) cs h2⟩
theorem attachForest_joinOK (pp ci cnm : Str) :
    ∀ (anc : List Str) (f : List DeckNode), forestJoinOK anc f = true →
      forestJoinOK anc
        (attachForest pp (DeckNode.mk ci cnm (pp ++ "::".toList ++ cnm) []) f) = true
  | _, [], _ => rfl
  | anc, n :: ns, hok => by
    rw [forestJoinOK_cons, Bool.and_eq_true] at hok
    obtain ⟨h1, h2⟩ := hok
    rw [attachForest, forestJoinOK_cons, Bool.and_eq_true]
    exact ⟨attachNode_joinOK pp ci cnm anc n h1, attachForest_joinOK pp ci cnm anc ns h2⟩
end

theorem walkParts_joinOK (d : Deck) :
    ∀ (parts : List Str) (f : List DeckNode) (cur : Str) (par : Option Str),
      forestJoinOK [] f = true →
      ((par = none ∧ cur = [] ∧ ∀ rest', parts = [] :: rest' → rest' = []) ∨
        (par = some cur ∧ cur ≠ [])) →
      forestJoinOK [] (walkParts d parts f cur par) = true := by
  intro parts
  induction parts with
  | nil => intro f cur par hok _; exact hok
  | cons part rest ih =>
    intro f cur par hok hst
    simp only [walkParts]
    rcases hst with ⟨rfl, rfl, hguard⟩ | ⟨rfl, hcur⟩
    · have hcp : stepPath [] part = part := by rw [stepPath, if_pos rfl]
      rw [hcp]
      have hok' : forestJoinOK [] (stepForest d part part none f) = true := by
        by_cases hmem : part ∈ forestPaths f
        · rw [stepForest_of_mem hmem]; exact hok
        · rw [stepForest_none_top hmem, forestJoinOK_append, Bool.and_eq_true]
          refine ⟨hok, ?_⟩
          rw [forestJoinOK_cons, newNode, nodeJoinOK]
          simp [forestJoinOK, joinPath, joinWith]
      by_cases hpart : part = []
      · subst hpart
        have hrest : rest = [] := hguard rest rfl
        subst hrest
        simp only [walkParts]
        exact hok'
      · exact ih _ part (some part) hok' (Or.inr ⟨rfl, hpart⟩)
    · have hcp : stepPath cur part = cur ++ "::".toList ++ part := by
        rw [stepPath, if_neg hcur]
      rw [hcp]
      have hok' : forestJoinOK []
          (stepForest d part (cur ++ "::".toList ++ part) (some cur) f) = true := by
        by_cases hmem : (cur ++ "::".toList ++ part) ∈ forestPaths f
        · rw [stepForest_of_mem hmem]; exact hok
        · rw [stepForest_some hmem, newNode]
          exact attachForest_joinOK cur _ part [] f hok
      have hne : cur ++ "::".toList ++ part ≠ [] := by
        intro he
        rcases List.append_eq_nil.mp he with ⟨h1, -⟩
        rcases List.append_eq_nil.mp h1 with ⟨-, h2⟩
        exact absurd h2 (by decide)
      exact ih _ _ (some _) hok' (Or.inr ⟨rfl, hne⟩)

theorem build_deck_tree_joinOK (decks : List Deck)
    (h : ∀ d ∈ decks, startsWithDelim d.name = false) :
    forestJoinOK [] (build_deck_tree decks) = true := by
  rw [build_deck_tree]
  have hs : ∀ d ∈ List.insertionSort deckLe decks, startsWithDelim d.name = false :=
    fun d hd => h d ((List.perm_insertionSort deckLe decks).mem_iff.mp hd)
  revert hs
  generalize List.insertionSort deckLe decks = ds
  intro hs
  have H : ∀ (ds : List Deck), (∀ d ∈ ds, startsWithDelim d.name = false) →
      ∀ (f : List DeckNode), forestJoinOK [] f = true →
      forestJoinOK []
        (ds.foldl (fun f d => walkParts d (splitDelim d.name) f [] none) f) = true := by
    intro ds
    induction ds with
    | nil => intro _ f hok; exact hok
    | cons d rest ih =>
      intro hds f hok
      rw [List.foldl_cons]
      refine ih (fun d' hd' => hds d' (List.mem_cons_of_mem _ hd')) _ ?_
      exact walkParts_joinOK d (splitDelim d.name) f [] none hok
        (Or.inl ⟨rfl, rfl, splitDelim_guard (hds d (List.mem_cons_self _ _))⟩)
  exact H ds hs [] rfl

/-- Claim C4 (corrected): in the tree built by `build_deck_tree`, no two
nodes ever share a `fullPath` (each distinct path yields exactly one node,
however many decks reference it as a prefix); and, provided no deck name
begins with the delimiter `::`, every node's `fullPath` is the `::`-join of
its ancestors' names from the root down to and including itself. -/
theorem c4_unique_paths_and_join (decks : List Deck) :
    (forestPaths (build_deck_tree decks)).Nodup ∧
    ((∀ d ∈ decks, startsWithDelim d.name = false) →
      forestJoinOK [] (build_deck_tree decks) = true) :=
  ⟨build_deck_tree_nodup decks, build_deck_tree_joinOK decks⟩

theorem c4_unique_paths_and_join_witness :
    (forestPaths (build_deck_tree
      [⟨"1".toList, "Math".toList⟩, ⟨"2".toList, "Math::Algebra".toList⟩])).Nodup ∧
    forestJoinOK [] (build_deck_tree
      [⟨"1".toList, "Math".toList⟩, ⟨"2".toList, "Math::Algebra".toList⟩]) = true :=
  ⟨(c4_unique_paths_and_join _).1, (c4_unique_paths_and_join _).2 (by decide)⟩

/-- Claim C4 counterexample: for the single deck named `"::a"` the builder
creates a root node with `fullPath ""` and, under it, a node named `"a"`
whose `fullPath` is `"a"` — not the `::`-join `"::a"` of its ancestors'
names — because the accumulated `current_path` restarts when it is empty
(`if current_path:` at line 185 is false).  Path uniqueness still holds. -/
theorem c4_unique_paths_and_join_cex :
    (forestPaths (build_deck_tree [⟨"1".toList, "::a".toList⟩])).Nodup ∧
    forestJoinOK [] (build_deck_tree [⟨"1".toList, "::a".toList⟩]) = false := by
  refine ⟨by decide, by decide⟩

theorem leadsWith_append (p t : Str) : leadsWith p (p ++ t) = true := by
  induction p with
  | nil => rfl
  | cons c cs ih => simp [leadsWith, ih]

theorem stepForest_ids {d : Deck} {part cur' : Str} {par : Option Str}
    {f : List DeckNode} : ∀ x ∈ forestIds (stepForest d part cur' par f),
      x ∈ forestIds f ∨ isVirtualId x = true ∨ x = d.id := by
  intro x hx
  have hnew : ∀ y, y ∈ nodeIds (newNode d part cur') →
      isVirtualId y = true ∨ y = d.id := by
    intro y hy
    rw [newNode_ids] at hy
    have hy' := List.mem_singleton.mp hy
    by_cases hn : cur' = d.name
    · rw [if_pos hn] at hy'
      exact Or.inr hy'
    · rw [if_neg hn] at hy'
      subst hy'
      exact Or.inl (leadsWith_append _ _)
  by_cases h : cur' ∈ forestPaths f
  · rw [stepForest_of_mem h] at hx
    exact Or.inl hx
  · rcases par with _ | pp
    · rw [stepForest_none_top h, forestIds_append, forestIds_singleton] at hx
      rcases List.mem_append.mp hx with h1 | h1
      · exact Or.inl h1
      · exact Or.inr (hnew x h1)
    · rw [stepForest_some h] at hx
      rcases attachForest_ids pp _ f x hx with h1 | h1
      · exact Or.inl h1
      · exact Or.inr (hnew x h1)

theorem walkParts_ids (d : Deck) :
    ∀ (parts : List Str) (f : List DeckNode) (cur : Str) (par : Option Str),
      ∀ x ∈ forestIds (walkParts d parts f cur par),
        x ∈ forestIds f ∨ isVirtualId x = true ∨ x = d.id := by
  intro parts
  induction parts with
  | nil => intro f cur par x hx; exact Or.inl hx
  | cons part rest ih =>
    intro f cur par x hx
    simp only [walkParts] at hx
    rcases ih _ _ _ x hx with h1 | h1
    · exact stepForest_ids x h1
    · exact Or.inr h1

theorem build_deck_tree_ids (decks : List Deck) :
    ∀ x ∈ forestIds (build_deck_tree decks),
      isVirtualId x = true ∨ ∃ d ∈ decks, x = d.id := by
  rw [build_deck_tree]
  have H : ∀ (ds : List Deck) (f : List DeckNode),
      ∀ x ∈ forestIds (ds.foldl
        (fun f d => walkParts d (splitDelim d.name) f [] none) f),
      x ∈ forestIds f ∨ isVirtualId x = true ∨ ∃ d ∈ ds, x = d.id := by
    intro ds
    induction ds with
    | nil => intro f x hx; exact Or.inl hx
    | cons d rest ih =>
      intro f x hx
      rw [List.foldl_cons] at hx
      rcases ih _ x hx with h1 | h1 | ⟨d', hd', rfl⟩
      · rcases walkParts_ids d (splitDelim d.name) f [] none x h1 with h2 | h2 | h2
        · exact Or.inl h2
        · exact Or.inr (Or.inl h2)
        · exact Or.inr (Or.inr ⟨d, List.mem_cons_self _ _, h2⟩)
      · exact Or.inr (Or.inl h1)
      · exact Or.inr (Or.inr ⟨d', List.mem_cons_of_mem _ hd', rfl⟩)
  intro x hx
  rcases H (List.insertionSort deckLe decks) [] x hx with h0 | h1 | ⟨d, hd, rfl⟩
  · rw [forestIds] at h0
    exact absurd h0 (List.not_mem_nil x)
  · exact Or.inl h1
  · exact Or.inr ⟨d, (List.perm_insertionSort deckLe decks).mem_iff.mp hd, rfl⟩

theorem mem_filterDecks {dj : List (Str × Option Str)} {d : Deck}
    (h : d ∈ filterDecks dj) :
    ∃ e ∈ dj, isDefaultName (e.2.getD "Unknown".toList) = false ∧
      d = ⟨e.1, e.2.getD "Unknown".toList⟩ := by
  rw [filterDecks] at h
  rcases List.mem_filterMap.mp h with ⟨e, he, hfe⟩
  by_cases hdef : isDefaultName (e.2.getD "Unknown".toList) = true
  · have hfe' : (if isDefaultName (e.2.getD "Unknown".toList) = true then none
        else some (⟨e.1, e.2.getD "Unknown".toList⟩ : Deck)) = some d := hfe
    rw [if_pos hdef] at hfe'
    exact Option.noConfusion hfe'
  · have hdef' := Bool.eq_false_iff.mpr hdef
    refine ⟨e, he, hdef', ?_⟩
    have hfe' : (if isDefaultName (e.2.getD "Unknown".toList) = true then none
        else some (⟨e.1, e.2.getD "Unknown".toList⟩ : Deck)) = some d := hfe
    rw [if_neg hdef] at hfe'
    exact (Option.some.inj hfe').symm

theorem filterDecks_mem {dj : List (Str × Option Str)} {e : Str × Option Str}
    (he : e ∈ dj) (hnd : isDefaultName (e.2.getD "Unknown".toList) = false) :
    (⟨e.1, e.2.getD "Unknown".toList⟩ : Deck) ∈ filterDecks dj := by
  rw [filterDecks]
  refine List.mem_filterMap.mpr ⟨e, he, ?_⟩
  show (if isDefaultName (e.2.getD "Unknown".toList) = true then none
    else some (⟨e.1, e.2.getD "Unknown".toList⟩ : Deck)) = _
  rw [hnd]
  rfl

theorem assoc_keys_unique : ∀ {l : List (Str × Option Str)}, (l.map Prod.fst).Nodup →
    ∀ {k : Str} {v w : Option Str}, (k, v) ∈ l → (k, w) ∈ l → v = w := by
  intro l
  induction l with
  | nil => intro _ k v w hv _; exact absurd hv (List.not_mem_nil _)
  | cons a t ih =>
    intro hnd k v w hv hw
    have hnd' : a.1 ∉ t.map Prod.fst ∧ (t.map Prod.fst).Nodup := by
      rw [List.map_cons] at hnd
      exact List.nodup_cons.mp hnd
    rcases List.mem_cons.mp hv with hv1 | hv2 <;> rcases List.mem_cons.mp hw with hw1 | hw2
    · exact (Prod.mk.inj (hv1.trans hw1.symm)).2
    · exfalso
      apply hnd'.1
      have hk : k = a.1 := (congrArg Prod.fst hv1)
      exact hk ▸ List.mem_map.mpr ⟨(k, w), hw2, rfl⟩
    · exfalso
      apply hnd'.1
      have hk : k = a.1 := (congrArg Prod.fst hw1)
      exact hk ▸ List.mem_map.mpr ⟨(k, v), hv2, rfl⟩
    · exact ih hnd'.2 hv2 hw2

/-- Claim C6 (corrected): a deck record whose name case-insensitively equals
a default label never contributes its record to the tree; provided the
deck's id does not itself begin with the synthesized-id marker `virtual_`
(and deck ids are unique, as JSON object keys are), no node anywhere in the
output tree carries that deck's id. -/
theorem c6_default_deck_excluded (dj : List (Str × Option Str)) (notes : List NoteRow)
    (cs : List CardRow) (i : Str) (o : Option Str)
    (hkeys : (dj.map Prod.fst).Nodup) (hmem : (i, o) ∈ dj)
    (hdef : isDefaultName (o.getD "Unknown".toList) = true)
    (hvirt : isVirtualId i = false) :
    (forestIds ((parse_anki_collection dj notes cs).decks)).contains i = false := by
  have hnotmem : i ∉ forestIds (build_deck_tree (filterDecks dj)) := by
    intro hin
    rcases build_deck_tree_ids (filterDecks dj) i hin with hv | ⟨d, hd, rfl⟩
    · rw [hv] at hvirt
      exact Bool.noConfusion hvirt
    · rcases mem_filterDecks hd with ⟨e, he, hnd, heq⟩
      have he1 : e.1 = d.id := by rw [heq]
      have hmem2 : (d.id, e.2) ∈ dj := by
        rw [← he1]
        exact he
      have hvw : o = e.2 := assoc_keys_unique hkeys hmem hmem2
      rw [← hvw] at hnd
      rw [hnd] at hdef
      exact Bool.noConfusion hdef
  show (forestIds (build_deck_tree (filterDecks dj))).contains i = false
  cases hc : (forestIds (build_deck_tree (filterDecks dj))).contains i
  · rfl
  · exact absurd (List.elem_iff.mp hc) hnotmem

theorem c6_default_deck_excluded_witness :
    (forestIds ((parse_anki_collection
      [("1".toList, some "Default".toList), ("2".toList, some "Math".toList)]
      [] []).decks)).contains "1".toList = false :=
  c6_default_deck_excluded
    [("1".toList, some "Default".toList), ("2".toList, some "Math".toList)]
    [] [] "1".toList (some "Default".toList) (by decide) (by decide) (by decide) (by decide)

/-- Claim C6 counterexample: the deck record `("virtual_Math", "Default")`
is excluded by name, but the other deck `"Math::X"` makes the builder
synthesize a node whose id is the string `virtual_Math` — equal to the
excluded deck's id — so a node carrying that id does appear in the tree. -/
theorem c6_default_deck_excluded_cex :
    isDefaultName ("Default".toList) = true ∧
    (forestIds ((parse_anki_collection
      [("virtual_Math".toList, some "Default".toList),
       ("2".toList, some "Math::X".toList)] [] []).decks)).contains
      "virtual_Math".toList = true := by
  refine ⟨by decide, by decide⟩

mutual
theorem attachNode_paths_sub (p : Str) (child : DeckNode) :
    ∀ n : DeckNode, ∀ x ∈ nodePaths (attachNode p child n),
      x ∈ nodePaths n ∨ x ∈ nodePaths child
  | .mk i nm fp cs, x, hx => by
    rw [nodePaths_mk]
    by_cases hfp : fp = p
    · rw [attachNode, if_pos hfp, nodePaths_mk, forestPaths_append,
        forestPaths_singleton] at hx
      rcases List.mem_cons.mp hx with rfl | hm
      · exact Or.inl (List.mem_cons_self _ _)
      · rcases List.mem_append.mp hm with h1 | h1
        · exact Or.inl (List.mem_cons_of_mem _ h1)
        · exact Or.inr h1
    · rw [attachNode, if_neg hfp, nodePaths_mk] at hx
      rcases List.mem_cons.mp hx with rfl | hm
      · exact Or.inl (List.mem_cons_self _ _)
      · rcases attachForest_paths_sub p child cs x hm with h1 | h1
        · exact Or.inl (List.mem_cons_of_mem _ h1)
        · exact Or.inr h1
theorem attachForest_paths_sub (p : Str) (child : DeckNode) :
    ∀ f : List DeckNode, ∀ x ∈ forestPaths (attachForest p child f),
      x ∈ forestPaths f ∨ x ∈ nodePaths child
  | [], x, hx => by
    rw [attachForest, forestPaths] at hx
    exact absurd hx (List.not_mem_nil x)
  | n :: ns, x, hx => by
    rw [attachForest, forestPaths_cons] at hx
    rw [forestPaths_cons]
    rcases List.mem_append.mp hx with hin | hin
    · rcases attachNode_paths_sub p child n x hin with h1 | h1
      · exact Or.inl (List.mem_append_left _ h1)
      · exact Or.inr h1
    · rcases attachForest_paths_sub p child ns x hin with h1 | h1
      · exact Or.inl (List.mem_append_right _ h1)
      · exact Or.inr h1
end

theorem topPaths_append (f g : List DeckNode) :
    topPaths (f ++ g) = topPaths f ++ topPaths g := List.map_append _ f g

theorem topPaths_newNode (d : Deck) (part cur' : Str) :
    topPaths [newNode d part cur'] = [cur'] := rfl

/-- The property of a root node used by claim C10: its full path is its own
name (roots are created at the first, single-segment prefix), and a root
whose path is default-labelled carries a synthesized id (a retained deck
cannot be named a default label, so the `cur' == name` test at line 192
fails for it). -/
def TopP (n : DeckNode) : Prop :=
  n.fullPath = n.name ∧
  (isDefaultName n.fullPath = true → n.id = "virtual_".toList ++ n.fullPath)

theorem stepForest_topP {d : Deck} {part cur' : Str} {par : Option Str}
    {f : List DeckNode} (hd : isDefaultName d.name = false)
    (hpc : par = none → cur' = part) (h : ∀ n ∈ f, TopP n) :
    ∀ n ∈ stepForest d part cur' par f, TopP n := by
  intro n hn
  by_cases hmem : cur' ∈ forestPaths f
  · rw [stepForest_of_mem hmem] at hn
    exact h n hn
  · rcases par with _ | pp
    · rw [stepForest_none_top hmem] at hn
      rcases List.mem_append.mp hn with h1 | h1
      · exact h n h1
      · have hcp : cur' = part := hpc rfl
        subst hcp
        have h2 := List.mem_singleton.mp h1
        subst h2
        refine ⟨rfl, ?_⟩
        intro hdef
        have hne : ¬ cur' = d.name := by
          intro he
          rw [show (newNode d cur' cur').fullPath = cur' from rfl, he] at hdef
          rw [hdef] at hd
          exact Bool.noConfusion hd
        show (newNode d cur' cur').id = _
        rw [show (newNode d cur' cur').id =
          (if cur' = d.name then d.id else "virtual_".toList ++ cur') from rfl,
          if_neg hne]
        rfl
    · rw [stepForest_some hmem, attachForest_map] at hn
      rcases List.mem_map.mp hn with ⟨n₀, hn₀, rfl⟩
      obtain ⟨e1, e2, e3⟩ := attachNode_fields pp (newNode d part cur') n₀
      obtain ⟨p1, p2⟩ := h n₀ hn₀
      refine ⟨?_, ?_⟩
      · rw [e3, e2, p1]
      · intro hdef
        rw [e3] at hdef ⊢
        rw [e1, p2 hdef]

theorem walkParts_topP (d : Deck) (hd : isDefaultName d.name = false) :
    ∀ (parts : List Str) (f : List DeckNode) (cur : Str) (par : Option Str),
      (par = none → cur = []) → (∀ n ∈ f, TopP n) →
      ∀ n ∈ walkParts d parts f cur par, TopP n := by
  intro parts
  induction parts with
  | nil => intro f cur par _ hf n hn; exact hf n hn
  | cons part rest ih =>
    intro f cur par hnone hf
    simp only [walkParts]
    refine ih _ _ (some (stepPath cur part)) (fun h => Option.noConfusion h) ?_
    refine stepForest_topP hd ?_ hf
    intro hpn
    rw [stepPath, if_pos (hnone hpn)]

theorem build_deck_tree_topP (decks : List Deck)
    (hds : ∀ d ∈ decks, isDefaultName d.name = false) :
    ∀ n ∈ build_deck_tree decks, TopP n := by
  rw [build_deck_tree]
  have hs : ∀ d ∈ List.insertionSort deckLe decks, isDefaultName d.name = false :=
    fun d hd => hds d ((List.perm_insertionSort deckLe decks).mem_iff.mp hd)
  revert hs
  generalize List.insertionSort deckLe decks = ds
  intro hs
  have H : ∀ (ds : List Deck), (∀ d ∈ ds, isDefaultName d.name = false) →
      ∀ (f : List DeckNode), (∀ n ∈ f, TopP n) →
      ∀ n ∈ ds.foldl (fun f d => walkParts d (splitDelim d.name) f [] none) f,
        TopP n := by
    intro ds
    induction ds with
    | nil => intro _ f hf n hn; exact hf n hn
    | cons d rest ih =>
      intro hds' f hf
      rw [List.foldl_cons]
      exact ih (fun d' h' => hds' d' (List.mem_cons_of_mem _ h')) _
        (walkParts_topP d (hds' d (List.mem_cons_self _ _)) (splitDelim d.name) f []
          none (fun _ => rfl) hf)
  exact H ds hs [] (fun n hn => absurd hn (List.not_mem_nil n))

/-- Every non-root node's path contains a `':'` (it was built by appending
`"::" + part` to a nonempty prefix), so a colon-free path can only belong
to a root node. -/
def ColonOK (f : List DeckNode) : Prop :=
  ∀ x ∈ forestPaths f, ':' ∈ x ∨ x ∈ topPaths f

theorem stepForest_colonOK {d : Deck} {part cur' : Str} {par : Option Str}
    {f : List DeckNode} (hpar : par = none ∨ ':' ∈ cur') (h : ColonOK f) :
    ColonOK (stepForest d part cur' par f) := by
  intro x hx
  by_cases hmem : cur' ∈ forestPaths f
  · rw [stepForest_of_mem hmem] at hx ⊢
    exact h x hx
  · rcases par with _ | pp
    · rw [stepForest_none_top hmem] at hx ⊢
      rw [forestPaths_append, forestPaths_singleton, newNode_paths] at hx
      rw [topPaths_append, topPaths_newNode]
      rcases List.mem_append.mp hx with h1 | h1
      · rcases h x h1 with h2 | h2
        · exact Or.inl h2
        · exact Or.inr (List.mem_append_left _ h2)
      · exact Or.inr (List.mem_append_right _ h1)
    · rcases hpar with hpn | hcc
      · exact Option.noConfusion hpn
      · rw [stepForest_some hmem] at hx ⊢
        rw [attachForest_topPaths]
        rcases attachForest_paths_sub pp _ f x hx with h1 | h1
        · exact h x h1
        · rw [newNode_paths] at h1
          have h2 := List.mem_singleton.mp h1
          subst h2
          exact Or.inl hcc

theorem walkParts_colonOK (d : Deck) :
    ∀ (parts : List Str) (f : List DeckNode) (cur : Str) (par : Option Str),
      ColonOK f →
      ((par = none ∧ cur = [] ∧ ∀ rest', parts = [] :: rest' → rest' = []) ∨
        (par = some cur ∧ cur ≠ [])) →
      ColonOK (walkParts d parts f cur par) := by
  intro parts
  induction parts with
  | nil => intro f cur par hcol _; exact hcol
  | cons part rest ih =>
    intro f cur par hcol hst
    simp only [walkParts]
    rcases hst with ⟨rfl, rfl, hguard⟩ | ⟨rfl, hcur⟩
    · have hcp : stepPath [] part = part := by rw [stepPath, if_pos rfl]
      rw [hcp]
      have hcol' : ColonOK (stepForest d part part none f) :=
        stepForest_colonOK (Or.inl rfl) hcol
      by_cases hpart : part = []
      · subst hpart
        have hrest : rest = [] := hguard rest rfl
        subst hrest
        simp only [walkParts]
        exact hcol'
      · exact ih _ part (some part) hcol' (Or.inr ⟨rfl, hpart⟩)
    · have hcp : stepPath cur part = cur ++ "::".toList ++ part := by
        rw [stepPath, if_neg hcur]
      rw [hcp]
      have hcc : ':' ∈ cur ++ "::".toList ++ part :=
        List.mem_append_left _ (List.mem_append_right _ (by decide))
      have hcol' : ColonOK (stepForest d part (cur ++ "::".toList ++ part)
          (some cur) f) :=
        stepForest_colonOK (Or.inr hcc) hcol
      have hne : cur ++ "::".toList ++ part ≠ [] := by
        intro he
        rcases List.append_eq_nil.mp he with ⟨h1, -⟩
        rcases List.append_eq_nil.mp h1 with ⟨-, h2⟩
        exact absurd h2 (by decide)
      exact ih _ _ (some _) hcol' (Or.inr ⟨rfl, hne⟩)

theorem stepForest_top_mono (d : Deck) (part cur' : Str) (par : Option Str)
    (f : List DeckNode) : ∀ x ∈ topPaths f,
      x ∈ topPaths (stepForest d part cur' par f) := by
  intro x hx
  by_cases hmem : cur' ∈ forestPaths f
  · rw [stepForest_of_mem hmem]
    exact hx
  · rcases par with _ | pp
    · rw [stepForest_none_top hmem, topPaths_append]
      exact List.mem_append_left _ hx
    · rw [stepForest_some hmem, attachForest_topPaths]
      exact hx

theorem walkParts_top_mono (d : Deck) :
    ∀ (parts : List Str) (f : List DeckNode) (cur : Str) (par : Option Str)
      (x : Str), x ∈ topPaths f → x ∈ topPaths (walkParts d parts f cur par) := by
  intro parts
  induction parts with
  | nil => intro f cur par x hx; exact hx
  | cons part rest ih =>
    intro f cur par x hx
    simp only [walkParts]
    exact ih _ _ _ x (stepForest_top_mono d part _ par f x hx)

theorem foldl_top_mono :
    ∀ (ds : List Deck) (f : List DeckNode) (x : Str), x ∈ topPaths f →
      x ∈ topPaths (ds.foldl
        (fun f d => walkParts d (splitDelim d.name) f [] none) f) := by
  intro ds
  induction ds with
  | nil => intro f x hx; exact hx
  | cons d rest ih =>
    intro f x hx
    rw [List.foldl_cons]
    exact ih _ x (walkParts_top_mono d (splitDelim d.name) f [] none x hx)

theorem walkParts_reach (d : Deck) {lbl : Str} (hcolon : ':' ∉ lbl) :
    ∀ (parts' : List Str) (f : List DeckNode), ColonOK f →
      lbl ∈ topPaths (walkParts d (lbl :: parts') f [] none) := by
  intro parts' f hcol
  simp only [walkParts]
  have hcp : stepPath [] lbl = lbl := by rw [stepPath, if_pos rfl]
  rw [hcp]
  have hreach : lbl ∈ topPaths (stepForest d lbl lbl none f) := by
    by_cases hmem : lbl ∈ forestPaths f
    · rw [stepForest_of_mem hmem]
      rcases hcol lbl hmem with hc | ht
      · exact absurd hc hcolon
      · exact ht
    · rw [stepForest_none_top hmem, topPaths_append, topPaths_newNode]
      exact List.mem_append_right _ (List.mem_cons_self _ _)
  exact walkParts_top_mono d parts' _ lbl (some lbl) lbl hreach

theorem foldl_reach {lbl : Str} (hcolon : ':' ∉ lbl) :
    ∀ (ds : List Deck) (f : List DeckNode), ColonOK f →
      (∀ d ∈ ds, ∀ rest', splitDelim d.name = [] :: rest' → rest' = []) →
      ∀ d₀ ∈ ds, (∃ parts', splitDelim d₀.name = lbl :: parts') →
      lbl ∈ topPaths (ds.foldl
        (fun f d => walkParts d (splitDelim d.name) f [] none) f) := by
  intro ds
  induction ds with
  | nil => intro f _ _ d₀ h0; exact absurd h0 (List.not_mem_nil d₀)
  | cons d rest ih =>
    intro f hcol hguards d₀ hd₀ hsplit
    obtain ⟨parts', hsp⟩ := hsplit
    rw [List.foldl_cons]
    rcases List.mem_cons.mp hd₀ with rfl | hmem
    · have h1 : lbl ∈ topPaths (walkParts d₀ (splitDelim d₀.name) f [] none) := by
        rw [hsp]
        exact walkParts_reach d₀ hcolon parts' f hcol
      exact foldl_top_mono rest _ lbl h1
    · refine ih _ ?_ (fun d' h' => hguards d' (List.mem_cons_of_mem _ h')) d₀ hmem
        ⟨parts', hsp⟩
      exact walkParts_colonOK d (splitDelim d.name) f [] none hcol
        (Or.inl ⟨rfl, rfl, hguards d (List.mem_cons_self _ _)⟩)

theorem defaultName_no_colon {lbl : Str} (h : isDefaultName lbl = true) : ':' ∉ lbl := by
  intro hc
  rw [isDefaultName] at h
  have hmem : strLower lbl ∈ defaultLabels := List.elem_iff.mp h
  have hcl : ':' ∈ strLower lbl := by
    rw [strLower]
    exact List.mem_map.mpr ⟨':', hc, by decide⟩
  rw [defaultLabels] at hmem
  rcases List.mem_cons.mp hmem with he | he
  · rw [he] at hcl
    exact absurd hcl (by decide)
  · rw [List.mem_singleton.mp he] at hcl
    exact absurd hcl (by decide)

theorem name_with_delim_not_default (lbl rest : Str) :
    isDefaultName (lbl ++ "::".toList ++ rest) = false := by
  have hc : ':' ∈ lbl ++ "::".toList ++ rest :=
    List.mem_append_left _ (List.mem_append_right _ (by decide))
  cases hres : isDefaultName (lbl ++ "::".toList ++ rest)
  · rfl
  · exact absurd hc (defaultName_no_colon hres)

theorem filterDecks_not_default {dj : List (Str × Option Str)} {d : Deck}
    (h : d ∈ filterDecks dj) : isDefaultName d.name = false := by
  rcases mem_filterDecks h with ⟨e, -, hnd, heq⟩
  rw [heq]
  exact hnd

/-- Claim C10 (corrected): a deck whose name merely begins with a default
label followed by `::` is retained (exclusion compares the whole name), and
— provided no deck name begins with the delimiter `::` — the builder places
a node for the default-label prefix at the root of the tree, with the label
as its name and path and with the synthesized id `virtual_<label>`.  So a
node labelled with a default name can appear in the output tree. -/
theorem c10_default_prefix_kept (dj : List (Str × Option Str)) (notes : List NoteRow)
    (cs : List CardRow) (i : Str) (o : Option Str) (lbl rest : Str)
    (hmem : (i, o) ∈ dj)
    (hname : o.getD "Unknown".toList = lbl ++ "::".toList ++ rest)
    (hlbl : isDefaultName lbl = true)
    (hH : ∀ e ∈ dj, startsWithDelim (e.2.getD "Unknown".toList) = false) :
    (⟨i, lbl ++ "::".toList ++ rest⟩ : Deck) ∈ filterDecks dj ∧
    ∃ n ∈ (parse_anki_collection dj notes cs).decks,
      n.fullPath = lbl ∧ n.name = lbl ∧ n.id = "virtual_".toList ++ lbl := by
  have hcolon : ':' ∉ lbl := defaultName_no_colon hlbl
  have hret : (⟨i, lbl ++ "::".toList ++ rest⟩ : Deck) ∈ filterDecks dj := by
    have h0 := filterDecks_mem hmem
      (show isDefaultName ((i, o).2.getD "Unknown".toList) = false by
        rw [show ((i, o).2 : Option Str) = o from rfl, hname]
        exact name_with_delim_not_default lbl rest)
    rw [show ((i, o).2 : Option Str) = o from rfl, hname] at h0
    exact h0
  refine ⟨hret, ?_⟩
  have hguards : ∀ d ∈ List.insertionSort deckLe (filterDecks dj),
      ∀ rest', splitDelim d.name = [] :: rest' → rest' = [] := by
    intro d hd
    rcases mem_filterDecks
      ((List.perm_insertionSort deckLe (filterDecks dj)).mem_iff.mp hd) with
      ⟨e, he, -, heq⟩
    refine splitDelim_guard ?_
    rw [heq]
    exact hH e he
  have hd₀ : (⟨i, lbl ++ "::".toList ++ rest⟩ : Deck) ∈
      List.insertionSort deckLe (filterDecks dj) :=
    (List.perm_insertionSort deckLe (filterDecks dj)).mem_iff.mpr hret
  have hempty : ColonOK ([] : List DeckNode) := by
    intro x hx
    rw [forestPaths] at hx
    exact absurd hx (List.not_mem_nil x)
  have htop : lbl ∈ topPaths (build_deck_tree (filterDecks dj)) := by
    rw [build_deck_tree]
    exact foldl_reach hcolon _ [] hempty hguards _ hd₀
      ⟨splitDelim rest, splitDelim_append hcolon rest⟩
  rcases List.mem_map.mp htop with ⟨n, hn, hfp⟩
  obtain ⟨p1, p2⟩ := build_deck_tree_topP (filterDecks dj)
    (fun d hd => filterDecks_not_default hd) n hn
  refine ⟨n, hn, hfp, ?_, ?_⟩
  · rw [← p1, hfp]
  · rw [p2 (by rw [hfp]; exact hlbl), hfp]

theorem c10_default_prefix_kept_witness :
    (⟨"7".toList, "Default".toList ++ "::".toList ++ "Sub".toList⟩ : Deck) ∈
      filterDecks [("7".toList, some "Default::Sub".toList)] ∧
    ∃ n ∈ (parse_anki_collection [("7".toList, some "Default::Sub".toList)]
        [] []).decks,
      n.fullPath = "Default".toList ∧ n.name = "Default".toList ∧
      n.id = "virtual_".toList ++ "Default".toList :=
  c10_default_prefix_kept [("7".toList, some "Default::Sub".toList)] [] []
    "7".toList (some "Default::Sub".toList) "Default".toList "Sub".toList
    (by decide) (by decide) (by decide) (by decide)

/-- Claim C10 counterexample: with the additional deck `"::Default"`, the
deck `"Default::Sub"` is still retained, but no ROOT node is named
`Default` — the `Default` prefix node ends up as a child of the root named
`""` created by `"::Default"` (its path still appears in the tree, just
not at the root). -/
theorem c10_default_prefix_kept_cex :
    (⟨"2".toList, "Default::Sub".toList⟩ : Deck) ∈ filterDecks
      [("1".toList, some "::Default".toList),
       ("2".toList, some "Default::Sub".toList)] ∧
    (((parse_anki_collection
      [("1".toList, some "::Default".toList),
       ("2".toList, some "Default::Sub".toList)] [] []).decks).map
        DeckNode.name).contains "Default".toList = false ∧
    (forestPaths ((parse_anki_collection
      [("1".toList, some "::Default".toList),
       ("2".toList, some "Default::Sub".toList)] [] []).decks)).contains
      "Default".toList = true := by
  refine ⟨by decide, by decide, by decide⟩
